import Mathlib

/-!
Verification development for the morfist mixed random-forest library
(`src/morfist/core.py` and `src/morfist/core/MixedSplitter.py`).

The Python code is shallowly embedded: matrices are lists of rows of
rationals, numpy float arithmetic is modelled by exact arithmetic over
the rationals and the reals, and the only genuinely real-valued
operation (`np.log2`) is modelled by `Real.logb 2`.  Fallible numpy
calls (`np.bincount` on negative data, `np.argmax` on empty data)
return `Option`.  The implicit numpy random generator is modelled by an
explicit `Oracle` of choice functions, and the unbounded `while` loop
of the tree builder by an explicit fuel parameter: a run of the Python
code corresponds to a run of the embedding with sufficiently large
fuel.
-/

set_option maxHeartbeats 2000000

namespace Morfist

/-- A matrix: a list of rows of rational numbers. -/
abbrev Mat := List (List ℚ)

/-- Column `i` of a matrix (`y[:, i]`); out-of-range entries default to 0. -/
def colD (y : Mat) (i : Nat) : List ℚ :=
  y.map (fun r => r.getD i 0)

/-- Maximum of a list of rationals (`np.max`); 0 on the empty list. -/
def listMax (l : List ℚ) : ℚ :=
  l.foldr max (l.headD 0)

/-- Minimum of a list of rationals (`np.min`); 0 on the empty list. -/
def listMin (l : List ℚ) : ℚ :=
  l.foldr min (l.headD 0)

/-- Python `int()` / numpy `astype(int)`: truncation toward zero. -/
def qtrunc (q : ℚ) : Int :=
  Int.tdiv q.num (q.den : Int)

/-- Numpy `np.unique`: the sorted list of distinct values. -/
def uniqueSorted (l : List ℚ) : List ℚ :=
  l.dedup.insertionSort (fun a b => a ≤ b)

/-- Midpoints of consecutive entries (`(values[:-1] + values[1:]) / 2`). -/
def midpoints (l : List ℚ) : List ℚ :=
  (l.zip l.tail).map (fun p => (p.1 + p.2) / 2)

/-- Largest element of a list of naturals, 0 if empty. -/
def natMaxL (l : List Nat) : Nat :=
  l.foldr max 0

/-- Numpy `np.bincount(l, minlength)`: counts of each value `0 ≤ i ≤ max l`;
fails (`ValueError`) if any entry is negative.  The result has length
`max minlength (max l + 1)` (`minlength` alone on empty input). -/
def bincountI (l : List Int) (minlength : Nat) : Option (List Nat) :=
  if l.any (fun z => z < 0) then none
  else
    let ln : List Nat := l.map Int.toNat
    let d : Nat := if ln.isEmpty then 0 else natMaxL ln + 1
    some ((List.range (max minlength d)).map (fun i => ln.count i))

/-- First position of the maximum of a list of naturals (`np.argmax`);
0 on the empty list (numpy raises there, callers guard with `Option`). -/
def argmaxFirst : List Nat → Nat
  | [] => 0
  | x :: xs => if natMaxL xs ≤ x then 0 else argmaxFirst xs + 1

/-- `np.argmax`, failing on an empty array as numpy does. -/
def argmaxOpt (l : List Nat) : Option Nat :=
  if l.isEmpty then none else some (argmaxFirst l)

/-- Index of the histogram bin of `v` for `nb` equal-width bins over
`[mn, mx]`; the last bin is closed (numpy convention). -/
def binIdx (mn mx v : ℚ) : Nat :=
  if mx ≤ v then 99 else (⌊(v - mn) * 100 / (mx - mn)⌋).toNat

/-- Raw counts of a 100-bin equal-width histogram of `l` over
`[listMin l, listMax l]` (the counting core of `np.histogram`). -/
def histCounts (l : List ℚ) : List Nat :=
  (List.range 100).map (fun i => l.countP (fun v => binIdx (listMin l) (listMax l) v == i))

/-- Shannon-entropy style sum `Σ p·log2 p` over a list of rational
probabilities, valued in the reals. -/
noncomputable def entSum (ps : List ℚ) : ℝ :=
  (ps.map (fun p : ℚ => (p : ℝ) * Real.logb 2 (p : ℝ))).sum

/-- The smoothing delta added to every per-target impurity. -/
noncomputable def delta : ℝ := (1 : ℝ) / 10000

/-- Classification impurity of `core.py` (`impurity_class` inside
`MixedSplitter.__impurity_node`): labels cast to int, frequencies via
`np.bincount(...) / size`, Shannon entropy over the non-zero
frequencies.  Fails when a cast label is negative (numpy raises). -/
noncomputable def impurity_class (yc : List ℚ) : Option ℝ :=
  match bincountI (yc.map qtrunc) 0 with
  | none => none
  | some counts =>
    let n : ℚ := yc.length
    let freq : List ℚ := counts.map (fun c : ℕ => (c : ℚ) / n)
    some (0 - entSum (freq.filter (fun f => decide (f ≠ 0))))

/-- Regression impurity of `core.py` (`impurity_reg` inside
`MixedSplitter.__impurity_node`).  Following the source faithfully: the
100-bin density histogram is taken over the WHOLE target matrix `y`
(the `np.histogram(y, ...)` call reads the enclosing scope's `y` and
flattens it), while the early exit and the final bin width use the
single column `yreg`. -/
noncomputable def impurity_reg (y : Mat) (yreg : List ℚ) : ℝ :=
  if (uniqueSorted yreg).length < 2 then 0
  else
    let flatv := y.flatten
    let bwF : ℚ := (listMax flatv - listMin flatv) / 100
    let nF : ℚ := flatv.length
    let freq : List ℚ := (histCounts flatv).map (fun c : ℕ => (c : ℚ) / (nF * bwF))
    let proba : List ℚ := freq.map (fun fq => (fq + 1) / (freq.sum + 100))
    let binWidth : ℚ := (listMax yreg - listMin yreg) / 100
    0 - (binWidth : ℝ) * entSum proba

/-- `MixedSplitter.__impurity_node` of `core.py`: per-target impurity
vector, classification or regression according to `class_targets`, each
entry shifted by `delta`. -/
noncomputable def impurity_node (ct : List Nat) (nT : Nat) (y : Mat) :
    Option (List ℝ) :=
  (List.range nT).mapM (fun i =>
    if i ∈ ct then
      (impurity_class (colD y i)).map (fun v => v + delta)
    else
      some (impurity_reg y (colD y i) + delta))

/-- A numpy float split score: finite, `np.inf` or `-np.inf`. -/
inductive Score where
  | negInf : Score
  | val : ℝ → Score
  | posInf : Score

/-- The comparison `a > b` on scores (numpy float semantics for the
infinities; the finite case is the classical real comparison). -/
noncomputable def Score.gtb : Score → Score → Bool
  | .posInf, .posInf => false
  | .posInf, _ => true
  | .val _, .posInf => false
  | .val a, .val b => @decide (b < a) (Classical.propDecidable _)
  | .val _, .negInf => true
  | .negInf, _ => false

/-- The `max_features` configuration of `core.py`: the string tag
`'sqrt'` or an integer. -/
inductive MaxF where
  | sqrt : MaxF
  | num : Nat → MaxF

/-- The `choose_split` configuration: `'mean'` or anything else (max). -/
inductive ChooseSplit where
  | mean : ChooseSplit
  | maxSplit : ChooseSplit

/-- `int(np.ceil(np.sqrt n))` on a natural number `n`. -/
def ceilSqrt (n : Nat) : Nat :=
  if Nat.sqrt n * Nat.sqrt n == n then Nat.sqrt n else Nat.sqrt n + 1

/-- The `max_features` resolution performed at the top of
`MixedSplitter.split` in `core.py`: the tag `'sqrt'` becomes
`int(np.ceil(np.sqrt(n_features)))`; a numeric value is kept. -/
def resolveCore : MaxF → Nat → Nat
  | .sqrt, n => ceilSqrt n
  | .num k, _ => k

/-- The state of a `core.py` `MixedSplitter` object. -/
structure SpState where
  nTrain : Nat
  nFeatures : Nat
  nTargets : Nat
  classTargets : List Nat
  maxFeatures : MaxF
  minSamplesLeaf : Nat
  rootImpurity : List ℝ
  chooseSplit : ChooseSplit

/-- `MixedSplitter.__init__` of `core.py`: records the shapes and the
configuration and computes the root impurity from the whole training
subset, once. -/
noncomputable def mkSplitter (x y : Mat) (mf : MaxF) (msl : Nat)
    (cs : ChooseSplit) (ct : List Nat) : Option SpState :=
  let nT := (y.headD []).length
  (impurity_node ct nT y).map (fun ri =>
    ⟨x.length, (x.headD []).length, nT, ct, mf, msl, ri, cs⟩)

/-- The per-target normalized gain vector of `__impurity_split`:
left/right/parent impurities divided elementwise by the root impurity,
then the size-weighted reduction. -/
noncomputable def gainVec (st : SpState) (il ir ip : List ℝ)
    (nl nr nPar : Nat) : List ℝ :=
  (List.range st.nTargets).map (fun i =>
    let root := st.rootImpurity.getD i 0
    let pl := il.getD i 0 / root
    let pr := ir.getD i 0 / root
    let pp := ip.getD i 0 / root
    ((nl : ℝ) / (nPar : ℝ)) * (pp - pl) + ((nr : ℝ) / (nPar : ℝ)) * (pp - pr))

/-- Numpy `.mean()` of a float vector. -/
noncomputable def meanR (l : List ℝ) : ℝ := l.sum / (l.length : ℝ)

/-- Numpy `.max()` of a float vector. -/
noncomputable def maxR (l : List ℝ) : ℝ := l.foldr max (l.headD 0)

/-- `MixedSplitter.__impurity_split` of `core.py`: POSITIVE infinity
when either partition is smaller than `min_samples_leaf` (the source
returns `np.inf`), otherwise the gain vector reduced by the configured
policy. -/
noncomputable def impuritySplit (st : SpState) (y yl yr : Mat) : Option Score :=
  let nl := yl.length
  let nr := yr.length
  if nl < st.minSamplesLeaf ∨ nr < st.minSamplesLeaf then some .posInf
  else
    match impurity_node st.classTargets st.nTargets yl,
          impurity_node st.classTargets st.nTargets yr,
          impurity_node st.classTargets st.nTargets y with
    | some il, some ir, some ip =>
      some (.val (match st.chooseSplit with
        | .mean => meanR (gainVec st il ir ip nl nr y.length)
        | .maxSplit => maxR (gainVec st il ir ip nl nr y.length)))
    | _, _, _ => none

/-- The rows of `x` and `y` where `x[:, f] <= t` (the left partition). -/
def partitionLe (x y : Mat) (f : Nat) (t : ℚ) : Mat × Mat :=
  (((x.zip y).filter (fun p => decide (p.1.getD f 0 ≤ t))).map Prod.fst,
   ((x.zip y).filter (fun p => decide (p.1.getD f 0 ≤ t))).map Prod.snd)

/-- The rows of `x` and `y` where `x[:, f] > t` (the right partition). -/
def partitionGt (x y : Mat) (f : Nat) (t : ℚ) : Mat × Mat :=
  (((x.zip y).filter (fun p => decide (t < p.1.getD f 0))).map Prod.fst,
   ((x.zip y).filter (fun p => decide (t < p.1.getD f 0))).map Prod.snd)

/-- The implicit numpy random generator, made explicit: feature
sub-sampling (`np.random.choice(arange(n_features), k, replace=False)`),
threshold sub-sampling (`np.random.choice(values, min(2, size))`) and
bootstrap row sampling (`np.random.choice(arange(n), n, replace=True)`). -/
structure Oracle where
  pickFeatures : Nat → List Nat → List Nat
  pickValues : Nat → List ℚ → List ℚ
  pickRows : Nat → Nat → List Nat

/-- The running best of the split search: feature, threshold, score. -/
abbrev Best := Option Nat × Option ℚ × Score

/-- The inner candidate loop of `__find_best_split`: try each sampled
threshold on feature `f`, keeping the candidate whenever its score
beats the current best (`imp > best_imp`). -/
noncomputable def tryCandidates (st : SpState) (x y : Mat) (f : Nat)
    (cands : List ℚ) (acc : Best) : Option Best :=
  cands.foldlM (fun b v =>
    (impuritySplit st y (partitionLe x y f v).2 (partitionGt x y f v).2).map
      (fun imp => if imp.gtb b.2.2 then (some f, some v, imp) else b)) acc

/-- `MixedSplitter.__find_best_split` of `core.py`: immediate
`(None, None, inf)` when the subset has at most `min_samples_leaf`
rows; otherwise scan the sampled features, skipping constant columns,
and scan up to two sampled midpoints per feature. -/
noncomputable def findBestSplit (o : Oracle) (st : SpState) (x y : Mat)
    (k : Nat) : Option Best :=
  if x.length ≤ st.minSamplesLeaf then some (none, none, .posInf)
  else
    (o.pickFeatures k (List.range st.nFeatures)).foldlM (fun b f =>
      let values := uniqueSorted (colD x f)
      if values.length < 2 then some b
      else
        let mids := midpoints values
        tryCandidates st x y f (o.pickValues (min 2 mids.length) mids) b)
      ((none : Option Nat), (none : Option ℚ), Score.negInf)

/-- `MixedSplitter.split` of `core.py`: resolve `max_features` (storing
the resolved integer back into the state) and search for the best
split. -/
noncomputable def splitStep (o : Oracle) (st : SpState) (x y : Mat) :
    Option (Best × SpState) :=
  let k := resolveCore st.maxFeatures st.nFeatures
  let st2 : SpState := ⟨st.nTrain, st.nFeatures, st.nTargets, st.classTargets,
    .num k, st.minSamplesLeaf, st.rootImpurity, st.chooseSplit⟩
  (findBestSplit o st2 x y k).map (fun b => (b, st2))

/-- Python truthiness of the stored feature (`if f:` in the source):
`None` and the integer 0 are both falsy. -/
def truthy : Option Nat → Bool
  | none => false
  | some k => !(k == 0)

/-- One node of the arena built by `MixedRandomTree.fit`; the parallel
arrays `f`, `t`, `v`, `l`, `r`, `n` become fields, and the subset the
node was built from is carried along (`sx`, `sy`) so that invariants
about it can be stated. -/
structure NodeRec where
  f : Option Nat
  t : Option ℚ
  v : List ℚ
  l : Option Nat
  r : Option Nat
  n : Nat
  sx : Mat
  sy : Mat

/-- `MixedRandomTree._make_leaf`: per classification target the first
most frequent label (`np.argmax(np.bincount(...))`), per regression
target the arithmetic mean.  Fails on an empty subset or on negative
cast labels, where numpy raises. -/
def makeLeaf (ct : List Nat) (nT : Nat) (y : Mat) : Option (List ℚ) :=
  (List.range nT).mapM (fun i =>
    if i ∈ ct then
      match bincountI ((colD y i).map qtrunc) 0 with
      | none => none
      | some counts => (argmaxOpt counts).map (fun m : ℕ => (m : ℚ))
    else
      if y.length = 0 then none
      else some ((colD y i).sum / ((colD y i).length : ℚ)))

/-- The `while split_queue` loop of `MixedRandomTree.fit`, with explicit
fuel.  A node's children ids are `i + len(split_queue) + 1` and
`i + len(split_queue) + 2` computed after the pop, and the two
partitions are enqueued; both happen only when the found feature is
truthy (`if f:`). -/
noncomputable def buildLoop (o : Oracle) : Nat → SpState → List NodeRec →
    List (Mat × Mat) → Option (List NodeRec × SpState)
  | _, st, acc, [] => some (acc, st)
  | 0, _, _, _ :: _ => none
  | fuel + 1, st, acc, (cx, cy) :: rest =>
    match makeLeaf st.classTargets st.nTargets cy with
    | none => none
    | some lv =>
      match splitStep o st cx cy with
      | none => none
      | some ((fo, t0, _), st2) =>
        if truthy fo then
          let kk := acc.length + rest.length + 1
          let fv := fo.getD 0
          let tv := t0.getD 0
          buildLoop o fuel st2
            (acc ++ [⟨fo, t0, lv, some kk, some (kk + 1), cy.length, cx, cy⟩])
            (rest ++ [partitionLe cx cy fv tv, partitionGt cx cy fv tv])
        else
          buildLoop o fuel st2
            (acc ++ [⟨fo, t0, lv, none, none, cy.length, cx, cy⟩]) rest

/-- `MixedRandomTree.fit` of `core.py`: build a splitter from the whole
training subset, then run the breadth-first loop starting from the root
work item. -/
noncomputable def fitTree (o : Oracle) (fuel : Nat) (mf : MaxF) (msl : Nat)
    (cs : ChooseSplit) (ct : List Nat) (x y : Mat) : Option (List NodeRec) :=
  match mkSplitter x y mf msl cs ct with
  | none => none
  | some st =>
    match buildLoop o fuel st [] [(x, y)] with
    | none => none
    | some (recs, _) => some recs

/-- Single-row version of the `traverse` closure in
`MixedRandomTree.predict`: route by `feature <= threshold` at truthy
nodes until a falsy (leaf) node is reached. -/
def traverseRow (recs : List NodeRec) : Nat → Nat → List ℚ → Option (List ℚ)
  | 0, _, _ => none
  | fuel + 1, idx, row =>
    match recs[idx]? with
    | none => none
    | some nd =>
      if truthy nd.f then
        if row.getD (nd.f.getD 0) 0 ≤ nd.t.getD 0 then
          traverseRow recs fuel (nd.l.getD 0) row
        else
          traverseRow recs fuel (nd.r.getD 0) row
      else some nd.v

/-- `MixedRandomTree.predict` for one row, starting at the root. -/
def predictTreeRow (recs : List NodeRec) (row : List ℚ) : Option (List ℚ) :=
  traverseRow recs (recs.length + 1) 0 row

/-- The configuration of a `MixedRandomForest`. -/
structure ForestCfg where
  nEstimators : Nat
  maxFeatures : MaxF
  minSamplesLeaf : Nat
  chooseSplit : ChooseSplit
  classTargets : List Nat

/-- A fitted `MixedRandomForest`: the trees, plus the per-classification
target distinct label values observed in the original training `Y`. -/
structure Forest where
  nEstimators : Nat
  nTargets : Nat
  classTargets : List Nat
  classLabels : List (Nat × List ℚ)
  trees : List (List NodeRec)

/-- `MixedRandomForest.fit` of `core.py`: record the distinct labels of
each classification target of the original `Y`, then fit
`n_estimators` trees on bootstrap resamples of the rows. -/
noncomputable def fitForest (o : Oracle) (fuel : Nat) (cfg : ForestCfg)
    (x y : Mat) : Option Forest :=
  let nT := (y.headD []).length
  let labels := ((List.range nT).filter (fun i => decide (i ∈ cfg.classTargets))).map
    (fun i => (i, uniqueSorted (colD y i)))
  let n := x.length
  ((List.range cfg.nEstimators).mapM (fun i =>
    let idx := o.pickRows i n
    fitTree o fuel cfg.maxFeatures cfg.minSamplesLeaf cfg.chooseSplit
      cfg.classTargets (idx.map (fun j => x.getD j []))
      (idx.map (fun j => y.getD j [])))).map
    (fun trees => ⟨cfg.nEstimators, nT, cfg.classTargets, labels, trees⟩)

/-- All trees' prediction vectors for one row (the stack
`pred[:, :, i] = m.predict(x)`). -/
def treeVotes (F : Forest) (row : List ℚ) : Option (List (List ℚ)) :=
  F.trees.mapM (fun tr => predictTreeRow tr row)

/-- `scipy.stats.mode` along the tree axis for one row: the smallest
most-frequent value (scipy returns the smallest on ties: it takes the
first maximum over the sorted distinct values). -/
def scipyMode (l : List ℚ) : Option ℚ :=
  let u := uniqueSorted l
  u[argmaxFirst (u.map (fun v => l.count v))]?

/-- `MixedRandomForest.predict` of `core.py`: per row and target,
`scipy.stats.mode` across trees for classification targets and the
arithmetic mean for regression targets. -/
def predictForest (F : Forest) (x : Mat) : Option Mat :=
  x.mapM (fun row => do
    let preds ← treeVotes F row
    (List.range F.nTargets).mapM (fun i =>
      let votes := preds.map (fun p => p.getD i 0)
      if i ∈ F.classTargets then scipyMode votes
      else some (votes.sum / (votes.length : ℚ))))

/-- `MixedRandomForest.predict_proba` of `core.py`: per row, for each
classification target, `np.bincount(votes, minlength=labels.size)`
divided by `n_estimators`; for regression targets the mean (wrapped as
a one-element vector, the object-array cell). -/
def predictProbaForest (F : Forest) (x : Mat) : Option (List (List (List ℚ))) :=
  x.mapM (fun row => do
    let preds ← treeVotes F row
    (List.range F.nTargets).mapM (fun i =>
      let votes := preds.map (fun p => p.getD i 0)
      if i ∈ F.classTargets then
        (bincountI (votes.map qtrunc)
            ((F.classLabels.lookup i).getD []).length).map
          (fun counts => counts.map (fun c : ℕ => (c : ℚ) / (F.nEstimators : ℚ)))
      else
        some [votes.sum / (votes.length : ℚ)]))

/-- Wrap an integer into the range of `np.int8` (modulo 256 into
`[-128, 127]`), the effect of `astype(np.int8)`. -/
def wrap8 (z : Int) : Int := (z + 128) % 256 - 128

namespace MS

/-- Modelled from the spec: `numba_histogram` (defined in
`morfist/algo/histogram.py`, which is not under `src/`) is described as
the pluggable accelerated histogram kernel, a "fixed-resolution
histogram (default 100 bins) over the subset's value range"; it is
modelled numpy-style as the counts of 100 equal-width bins over
`[min, max]` with the last bin closed (the returned bin edges are
unused by the caller and omitted). -/
def numba_histogram (l : List ℚ) : List Nat := histCounts l

/-- The frequency vector computed by `impurity_classification` in
`core/MixedSplitter.py`: the labels are cast to 8-bit signed integers
(`astype(np.int8)`, wrapping modulo 256) and then counted by
`np.bincount` (which raises on a negative value) and divided by the
number of labels. -/
def classFreqs (yc : List ℚ) : Option (List ℚ) :=
  match bincountI (yc.map (fun q => wrap8 (qtrunc q))) 0 with
  | none => none
  | some counts => some (counts.map (fun c : ℕ => (c : ℚ) / (yc.length : ℚ)))

/-- `impurity_classification` of `core/MixedSplitter.py`: Shannon
entropy of `classFreqs` over its non-zero entries. -/
noncomputable def impurity_classification (yc : List ℚ) : Option ℝ :=
  (classFreqs yc).map (fun freq =>
    0 - entSum (freq.filter (fun f => decide (f ≠ 0))))

/-- The rational skeleton of `impurity_regression` in
`core/MixedSplitter.py`: the smoothed bin probabilities and the bin
width.  Following the source faithfully, the histogram is over the
single column `yreg`, but the bin width (`(y.max() - y.min()) / n_bins`)
and the density scaling (`(counts / len(y)) / bin_width`) use the WHOLE
target matrix `y`. -/
def msHistProbs (y : Mat) (yreg : List ℚ) : List ℚ × ℚ :=
  let binWidth : ℚ := (listMax y.flatten - listMin y.flatten) / 100
  let freqF : List ℚ :=
    (numba_histogram yreg).map (fun c : ℕ => ((c : ℚ) / (y.length : ℚ)) / binWidth)
  (freqF.map (fun fq => (fq + 1) / (freqF.sum + 100)), binWidth)

/-- `impurity_regression` of `core/MixedSplitter.py`: 0 when the column
has fewer than two distinct values, otherwise
`-bin_width · Σ p·log2 p` over the smoothed probabilities. -/
noncomputable def impurity_regression (y : Mat) (yreg : List ℚ) : ℝ :=
  if (uniqueSorted yreg).length < 2 then 0
  else 0 - ((msHistProbs y yreg).2 : ℝ) * entSum (msHistProbs y yreg).1

/-- The `max_features` configuration union of `core/MixedSplitter.py`:
the string tags `'sqrt'` and `'log2'`, a float fraction, `None`, or an
integer. -/
inductive MaxFM where
  | sqrt : MaxFM
  | log2 : MaxFM
  | frac : ℚ → MaxFM
  | noneTag : MaxFM
  | num : Nat → MaxFM

/-- The `max_features` resolution at the top of `MixedSplitter.split`
in `core/MixedSplitter.py`: `int(np.sqrt(n))` is the FLOOR of the
square root (unlike `core.py`, which takes the ceiling), `int(np.log2 n)`
the floor of the base-2 logarithm, `int(p * n)` the floor of the
fraction, `None` means all features; a numeric value is kept. -/
def resolveMS : MaxFM → Nat → Nat
  | .sqrt, n => Nat.sqrt n
  | .log2, n => Nat.log2 n
  | .frac p, n => (⌊p * (n : ℚ)⌋).toNat
  | .noneTag, n => n
  | .num k, _ => k

/-- The update `split` makes to the stored `max_features` field in
`core/MixedSplitter.py`: after any call it holds the resolved integer. -/
def resolveStep (mf : MaxFM) (n : Nat) : MaxFM := .num (resolveMS mf n)

/-- The `max_features` field after `j` calls to `split` (state
iteration of `resolveStep`). -/
def iterResolve (n : Nat) : Nat → MaxFM → MaxFM
  | 0, mf => mf
  | j + 1, mf => iterResolve n j (resolveStep mf n)

end MS

/-- The update `split` makes to the stored `max_features` field in
`core.py` (the `maxFeatures` component of `splitStep`). -/
def coreResolveStep (mf : MaxF) (n : Nat) : MaxF := .num (resolveCore mf n)

/-- The `max_features` field of the `core.py` splitter after `j` calls
to `split`. -/
def coreIterResolve (n : Nat) : Nat → MaxF → MaxF
  | 0, mf => mf
  | j + 1, mf => coreIterResolve n j (coreResolveStep mf n)

/-- The regression impurity exactly as claim C3 states it: a 100-bin
histogram of the target COLUMN over the COLUMN's value range, bin
counts converted to densities with the column's bin width and element
count, Laplace smoothing `(d+1)/(Σd+100)` (so the probabilities sum to
1), and the estimate `-bin_width · Σ p·log2 p`; 0 when the column has
fewer than two distinct values. -/
noncomputable def claimImpurityReg (yreg : List ℚ) : ℝ :=
  if (uniqueSorted yreg).length < 2 then 0
  else
    let bw : ℚ := (listMax yreg - listMin yreg) / 100
    let dens : List ℚ :=
      (histCounts yreg).map (fun c : ℕ => (c : ℚ) / ((yreg.length : ℚ) * bw))
    let proba : List ℚ := dens.map (fun d => (d + 1) / (dens.sum + 100))
    0 - (bw : ℝ) * entSum proba

/-- The amended description of `impurity_regression` of
`core/MixedSplitter.py`: the histogram is of the column over the
column's value range, but both the density conversion and the final
bin width use the bin width of the WHOLE target matrix (its value range
divided by 100) and the matrix's row count.  Stated with indexed
`Finset.range` sums rather than list traversals. -/
noncomputable def amendedImpurityReg (y : Mat) (yreg : List ℚ) : ℝ :=
  if 2 ≤ (uniqueSorted yreg).length then
    let bw : ℚ := (listMax y.flatten - listMin y.flatten) / 100
    let d : Nat → ℚ := fun i =>
      (((MS.numba_histogram yreg).getD i 0 : ℚ) / (y.length : ℚ)) / bw
    let s : ℚ := ∑ i ∈ Finset.range 100, d i
    0 - (bw : ℝ) * ∑ i ∈ Finset.range 100,
      (((d i + 1) / (s + 100) : ℚ) : ℝ) *
        Real.logb 2 (((d i + 1) / (s + 100) : ℚ) : ℝ)
  else 0

/-- A simple deterministic instance of the random oracle, used for the
concrete runs: feature sampling returns the whole pool, threshold
sampling takes the first `k` midpoints, bootstrap sampling returns the
identity resample `0, …, n-1`. -/
def oracleId : Oracle :=
  ⟨fun _ pool => pool, fun k pool => pool.take k, fun _ n => List.range n⟩

/-- Concrete training features for the C1 run: feature 0 is constant,
feature 1 separates the three rows. -/
def xC1 : Mat := [[5, 0], [5, 1], [5, 2]]

/-- Concrete regression targets for the C1 run. -/
def yC1 : Mat := [[0], [1], [2]]

/-- Concrete single-feature training data for the C2 run. -/
def xC2 : Mat := [[0], [1]]

/-- Concrete single-target regression labels for the C2 run. -/
def yC2 : Mat := [[0], [1]]

/-- Concrete target matrix for C3: the regression column 0 holds
`0, …, 99` (one value per histogram bin of its own range), while
column 1 stretches the full matrix range to `[0, 198]`. -/
def yC3 : Mat := (List.range 100).map (fun k : ℕ => [(k : ℚ), if k == 0 then 198 else 0])

/-- The rationals `0, …, n-1` as a list. -/
def qrange (n : Nat) : List ℚ := (List.range n).map (fun k : ℕ => (k : ℚ))

/-- Concrete forest configuration for the C4 run: one estimator,
default `min_samples_leaf = 5`, no classification targets. -/
def cfgC4 : ForestCfg := ⟨1, .sqrt, 5, .mean, []⟩

/-- Concrete 1-row training data for the C4 run. -/
def xC4 : Mat := [[0]]

/-- Concrete 1-row target for the C4 run. -/
def yC4 : Mat := [[0]]

/-- Concrete forest configuration for the C6 run: one estimator, one
classification target. -/
def cfgC6 : ForestCfg := ⟨1, .sqrt, 5, .mean, [0]⟩

/-- Concrete 1-row training data for the C6 run. -/
def xC6 : Mat := [[7]]

/-- Concrete 1-row classification target for the C6 run: the single
observed label is 2, so the distinct-label set has size 1. -/
def yC6 : Mat := [[2]]

/-- A concrete fitted single-tree forest (one leaf predicting label 3
for the classification target 0), used to instantiate the forest
prediction theorems. -/
def forestC7 : Forest :=
  ⟨1, 1, [0], [(0, [3])], [[⟨none, none, [3], none, none, 2, [[1], [4]], [[3], [3]]⟩]]⟩

/-- Concrete labels for C10: the value 256 wraps to 0 under the
`np.int8` cast. -/
def labelsC10 : List ℚ := [0, 256]

/-- The child-id invariant for node `j` of a finished arena: if the
node is truthy (marked Internal by the builder), its stored ids are
consecutive `k` and `k+1`, both are valid indices of materialized
nodes, and the nodes found there were built exactly from the left and
right partitions of `j`'s subset by `j`'s stored feature and
threshold. -/
def childOk (res : List NodeRec) (j : Nat) : Prop :=
  ∀ nd, res[j]? = some nd → truthy nd.f = true →
    ∃ k, nd.l = some k ∧ nd.r = some (k + 1) ∧ k + 1 < res.length ∧
      ∃ ndl ndr, res[k]? = some ndl ∧ res[k + 1]? = some ndr ∧
        (ndl.sx, ndl.sy) = partitionLe nd.sx nd.sy (nd.f.getD 0) (nd.t.getD 0) ∧
        (ndr.sx, ndr.sy) = partitionGt nd.sx nd.sy (nd.f.getD 0) (nd.t.getD 0)

/-- C1: on the failing input — three rows, `min_samples_leaf = 2`, every
candidate split leaving a 1-row partition — `__impurity_split` scores the
undersized candidate `np.inf` (POSITIVE infinity, first conjunct), so the
candidate wins the `imp > best_imp` comparison and the fitted tree has an
Internal root (feature 1, threshold 1/2) whose left child subset has
1 < 2 = `min_samples_leaf` rows (second conjunct, node 1 has `n = 1`).
This contradicts the claim that such candidates score `-∞` and are never
selected, and its consequence that no Internal node has an undersized
child. -/
theorem c1_inf_candidate_selected :
    (impuritySplit ⟨3, 2, 1, [], .num 2, 2, [1], .mean⟩ yC1 [[0]] [[1], [2]]
      = some .posInf) ∧
    ((fitTree oracleId 10 .sqrt 2 .mean [] xC1 yC1).map
        (fun recs => recs.map (fun nd => (nd.f, nd.t, nd.l, nd.r, nd.n))) =
      some [(some 1, some (1/2), some 1, some 2, 3),
            (none, none, none, none, 1),
            (none, none, none, none, 2)]) := by
  exact ⟨by with_unfolding_all rfl, by with_unfolding_all rfl⟩

/-- C2: on the failing input — a single feature, so the best split is on
feature index 0 — the fitted tree consists of ONE node whose stored split
feature is `Some 0` (the splitter returned a Split decision with feature 0
and threshold 1/2) but which is marked as a leaf: `l = r = None` and
nothing was enqueued.  The Python `if f:` treats the integer 0 as falsy,
contradicting the claim that a Split with any feature index (including 0)
yields an Internal node and that a node is a Leaf exactly on NoSplit. -/
theorem c2_feature_zero_becomes_leaf :
    (fitTree oracleId 10 .sqrt 1 .mean [] xC2 yC2).map
        (fun recs => recs.map (fun nd => (nd.f, nd.t, nd.l, nd.r, nd.n))) =
      some [(some 0, some (1/2), none, none, 2)] := by
  with_unfolding_all rfl

/-- `Nat.sqrt` is the floor of the real square root. -/
theorem natSqrt_eq_floor_sqrt (n : ℕ) : Nat.sqrt n = ⌊Real.sqrt n⌋₊ := by
  symm
  rw [Nat.floor_eq_iff (Real.sqrt_nonneg _)]
  constructor
  · rw [show ((n : ℝ)) = ((n : ℝ)) from rfl, Real.le_sqrt (by positivity) (by positivity)]
    exact_mod_cast Nat.sqrt_le' n
  · have h2 : (n : ℝ) < ((Nat.sqrt n : ℝ) + 1) ^ 2 := by
      exact_mod_cast Nat.lt_succ_sqrt' n
    have := Real.sqrt_lt' (x := (n : ℝ)) (y := (Nat.sqrt n : ℝ) + 1) (by positivity)
    exact this.mpr h2

/-- `ceilSqrt` is the ceiling of the real square root. -/
theorem ceilSqrt_eq_ceil_sqrt (n : ℕ) : ceilSqrt n = ⌈Real.sqrt n⌉₊ := by
  unfold ceilSqrt
  by_cases h : Nat.sqrt n * Nat.sqrt n = n
  · have hs : Real.sqrt n = (Nat.sqrt n : ℝ) := by
      rw [show ((n : ℝ)) = ((Nat.sqrt n : ℝ)) ^ 2 by
        rw [sq]; exact_mod_cast h.symm]
      exact Real.sqrt_sq (by positivity)
    simp [h, hs]
  · have hb : (Nat.sqrt n * Nat.sqrt n == n) = false := by
      simpa using h
    rw [hb]
    simp only [Bool.false_eq_true, if_false]
    symm
    rw [Nat.ceil_eq_iff (Nat.succ_ne_zero _)]
    constructor
    · have hlt : (Nat.sqrt n : ℝ) ^ 2 < (n : ℝ) := by
        have hne : Nat.sqrt n ^ 2 < n := by
          rcases Nat.lt_or_ge (Nat.sqrt n ^ 2) n with h1 | h1
          · exact h1
          · exact absurd (Nat.le_antisymm (Nat.sqrt_le' n) h1) (by rw [sq]; exact h)
        exact_mod_cast hne
      have hx : (0 : ℝ) ≤ (Nat.sqrt n : ℝ) := by positivity
      have := (Real.lt_sqrt hx).mpr hlt
      simpa using this
    · have h2 : (n : ℝ) ≤ ((Nat.sqrt n : ℝ) + 1) ^ 2 := by
        exact_mod_cast Nat.le_of_lt (Nat.lt_succ_sqrt' n)
      have h3 := Real.sqrt_le_sqrt h2
      rw [Real.sqrt_sq (by positivity)] at h3
      simpa [Nat.succ_eq_add_one] using h3

/-- C5 counterexample: with 2 features, `core/MixedSplitter.py` resolves
the `'sqrt'` tag to `int(np.sqrt(2)) = 1`, which is not
`⌈√2⌉ = 2` — the claim's ceiling formula does not hold for this
implementation (only `core.py` takes the ceiling). -/
theorem c5_floor_vs_ceil_counterexample :
    MS.resolveMS .sqrt 2 = 1 ∧ ⌈Real.sqrt 2⌉₊ = 2 ∧
      MS.resolveMS .sqrt 2 ≠ ⌈Real.sqrt 2⌉₊ := by
  have h1 : MS.resolveMS .sqrt 2 = 1 := by
    show Nat.sqrt 2 = 1
    norm_num
  have h2 : ⌈Real.sqrt 2⌉₊ = 2 := by
    rw [show (2 : ℝ) = ((2 : ℕ) : ℝ) by norm_num, ← ceilSqrt_eq_ceil_sqrt]
    norm_num [ceilSqrt]
  exact ⟨h1, h2, by rw [h1, h2]; omega⟩

/-- `coreIterResolve` is constant on an already numeric field. -/
theorem coreIterResolve_num (n k : Nat) : ∀ j, coreIterResolve n j (.num k) = .num k := by
  intro j
  induction j with
  | zero => rfl
  | succ j ih => simpa [coreIterResolve, coreResolveStep, resolveCore] using ih

/-- `MS.iterResolve` is constant on an already numeric field. -/
theorem msIterResolve_num (n k : Nat) : ∀ j, MS.iterResolve n j (.num k) = .num k := by
  intro j
  induction j with
  | zero => rfl
  | succ j ih => simpa [MS.iterResolve, MS.resolveStep, MS.resolveMS] using ih

/-- C5 amended: the `'sqrt'` tag is resolved once, at the owning tree's
first split, to a fixed integer that every subsequent split reuses — but
the integer is `⌈√n_features⌉` in `core.py` and `⌊√n_features⌋` in
`core/MixedSplitter.py`.  The last two conjuncts state the once-and-reuse
property: after `j ≥ 1` split calls the stored `max_features` field of
either splitter holds exactly the integer resolved at the first call. -/
theorem c5_sqrt_resolution_amended :
    (∀ n, resolveCore .sqrt n = ⌈Real.sqrt n⌉₊) ∧
    (∀ n, MS.resolveMS .sqrt n = ⌊Real.sqrt n⌋₊) ∧
    (∀ n j, 1 ≤ j → coreIterResolve n j .sqrt = .num (resolveCore .sqrt n)) ∧
    (∀ n j, 1 ≤ j → MS.iterResolve n j .sqrt = .num (MS.resolveMS .sqrt n)) := by
  refine ⟨fun n => ceilSqrt_eq_ceil_sqrt n, fun n => natSqrt_eq_floor_sqrt n, ?_, ?_⟩
  · intro n j hj
    cases j with
    | zero => omega
    | succ j =>
      simpa [coreIterResolve, coreResolveStep] using
        coreIterResolve_num n (resolveCore .sqrt n) j
  · intro n j hj
    cases j with
    | zero => omega
    | succ j =>
      simpa [MS.iterResolve, MS.resolveStep] using
        msIterResolve_num n (MS.resolveMS .sqrt n) j

/-- C5 witness: the amended theorem applied at `n_features = 2` after 3
split calls: `core.py` samples `⌈√2⌉ = 2` features, the other splitter
`⌊√2⌋ = 1`, and both fields are already fixed to those integers. -/
theorem c5_sqrt_resolution_amended_witness :
    resolveCore .sqrt 2 = ⌈Real.sqrt 2⌉₊ ∧
    MS.resolveMS .sqrt 2 = ⌊Real.sqrt 2⌋₊ ∧
    coreIterResolve 2 3 .sqrt = .num (resolveCore .sqrt 2) ∧
    MS.iterResolve 2 3 .sqrt = .num (MS.resolveMS .sqrt 2) :=
  ⟨by simpa using c5_sqrt_resolution_amended.1 2,
   by simpa using c5_sqrt_resolution_amended.2.1 2,
   c5_sqrt_resolution_amended.2.2.1 2 3 (by omega),
   c5_sqrt_resolution_amended.2.2.2 2 3 (by omega)⟩

/-- Truncating a natural number viewed as a rational gives it back. -/
theorem qtrunc_natCast (k : ℕ) : qtrunc (k : ℚ) = (k : ℤ) := by
  unfold qtrunc
  rw [Rat.num_natCast, Rat.den_natCast]
  simp [Int.tdiv]

/-- The `np.int8` wrap is the identity on `0, …, 127`. -/
theorem wrap8_of_le (k : ℕ) (h : k ≤ 127) : wrap8 (k : ℤ) = (k : ℤ) := by
  unfold wrap8
  have h1 : ((k : ℤ) + 128) % 256 = (k : ℤ) + 128 := by
    apply Int.emod_eq_of_lt <;> omega
  omega

/-- Every member of a list of naturals is bounded by `natMaxL`. -/
theorem le_natMaxL {l : List ℕ} {x : ℕ} (hx : x ∈ l) : x ≤ natMaxL l := by
  induction l with
  | nil => cases hx
  | cons a l ih =>
    rcases List.mem_cons.mp hx with rfl | hx
    · exact Nat.le_max_left _ _
    · exact le_trans (ih hx) (Nat.le_max_right _ _)

/-- C10: the numba classification impurity is frequency-correct exactly
on small labels.  First conjunct: for any label list consisting of
naturals at most 127, `classFreqs` succeeds and returns precisely the
true empirical label frequencies `count k / size` for `k` up to the
largest label, so the entropy computed from it is the entropy of the
true frequencies.  Second conjunct: on the concrete input `[0, 256]`
(a label greater than 127), the `astype(np.int8)` cast wraps 256 to 0,
the computed frequency vector is `[1]`, while the true frequency of
label 0 is `1/2 ≠ 1`. -/
theorem c10_int8_cast_precondition :
    (∀ ks : List ℕ, (∀ k ∈ ks, k ≤ 127) →
      MS.classFreqs (ks.map (fun k : ℕ => (k : ℚ))) =
        some ((List.range (if ks.isEmpty then 0 else natMaxL ks + 1)).map
          (fun i => ((ks.map (fun k : ℕ => (k : ℚ))).count ((i : ℕ) : ℚ) : ℚ) /
            ((ks.map (fun k : ℕ => (k : ℚ))).length : ℚ))) ∧
      MS.impurity_classification (ks.map (fun k : ℕ => (k : ℚ))) =
        some (0 - entSum (((List.range (if ks.isEmpty then 0 else natMaxL ks + 1)).map
          (fun i => ((ks.map (fun k : ℕ => (k : ℚ))).count ((i : ℕ) : ℚ) : ℚ) /
            ((ks.map (fun k : ℕ => (k : ℚ))).length : ℚ))).filter
              (fun f => decide (f ≠ 0))))) ∧
    (MS.classFreqs labelsC10 = some [1] ∧
     (labelsC10.count ((0 : ℕ) : ℚ) : ℚ) / (labelsC10.length : ℚ) = 1 / 2 ∧
     ((1 : ℚ) ≠ 1 / 2) ∧ (127 : ℚ) < 256 ∧ (256 : ℚ) ∈ labelsC10) := by
  constructor
  · intro ks hks
    have hmap : (ks.map (fun k : ℕ => (k : ℚ))).map (fun q => wrap8 (qtrunc q)) =
        ks.map (fun k : ℕ => (k : ℤ)) := by
      rw [List.map_map]
      refine List.map_congr_left (fun k hk => ?_)
      show wrap8 (qtrunc (k : ℚ)) = (k : ℤ)
      rw [qtrunc_natCast, wrap8_of_le k (hks k hk)]
    have hfreq : MS.classFreqs (ks.map (fun k : ℕ => (k : ℚ))) =
        some ((List.range (if ks.isEmpty then 0 else natMaxL ks + 1)).map
          (fun i => ((ks.map (fun k : ℕ => (k : ℚ))).count ((i : ℕ) : ℚ) : ℚ) /
            ((ks.map (fun k : ℕ => (k : ℚ))).length : ℚ))) := by
      unfold MS.classFreqs bincountI
      rw [hmap]
      have hneg : (ks.map (fun k : ℕ => (k : ℤ))).any (fun z => decide (z < 0)) = false := by
        simp
      rw [if_neg (by simp_all)]
      have htn : (ks.map (fun k : ℕ => (k : ℤ))).map Int.toNat = ks := by
        rw [List.map_map]
        have hcomp : (Int.toNat ∘ fun k : ℕ => (k : ℤ)) = id := by
          funext k; simp
        rw [hcomp, List.map_id]
      simp only [htn]
      congr 1
      rw [List.map_map]
      have hmax : max 0 (if ks.isEmpty then 0 else natMaxL ks + 1) =
          (if ks.isEmpty then 0 else natMaxL ks + 1) :=
        max_eq_right (Nat.zero_le _)
      rw [hmax]
      refine List.map_congr_left (fun i _ => ?_)
      have hcnt : (ks.map (fun k : ℕ => (k : ℚ))).count ((i : ℕ) : ℚ) = ks.count i :=
        List.count_map_of_injective ks (fun k : ℕ => (k : ℚ)) Nat.cast_injective i
      rw [hcnt]
      rfl
    refine ⟨hfreq, ?_⟩
    unfold MS.impurity_classification
    rw [hfreq]
    rfl
  · refine ⟨by with_unfolding_all rfl, by with_unfolding_all rfl, by norm_num, by norm_num, ?_⟩
    show (256 : ℚ) ∈ [0, 256]
    simp

/-- C10 witness: the universal part applied to the concrete small-label
list `[0, 1, 1]` (labels at most 127): the computed frequency vector is
the true one, `[1/3, 2/3]`. -/
theorem c10_int8_cast_precondition_witness :
    (∀ k ∈ ([0, 1, 1] : List ℕ), k ≤ 127) ∧
    MS.classFreqs (([0, 1, 1] : List ℕ).map (fun k : ℕ => (k : ℚ))) =
      some ((List.range (if ([0, 1, 1] : List ℕ).isEmpty then 0
          else natMaxL [0, 1, 1] + 1)).map
        (fun i => ((([0, 1, 1] : List ℕ).map (fun k : ℕ => (k : ℚ))).count ((i : ℕ) : ℚ) : ℚ) /
          ((([0, 1, 1] : List ℕ).map (fun k : ℕ => (k : ℚ))).length : ℚ))) :=
  ⟨by decide, (c10_int8_cast_precondition.1 [0, 1, 1] (by decide)).1⟩

/-- C8: the root impurity of a `core.py` splitter is computed exactly
once, from the whole training subset, at construction (first conjunct:
a successfully constructed splitter's `root_impurity` field is the
node impurity of the `y` it was constructed from), and is never
recomputed or mutated afterwards: a `split` call changes only the
`max_features` field (second conjunct), and the splitter state at the
end of any completed tree-building loop — which threads the state
through every `split` call made while growing the tree, each of whose
normalized comparisons divides by the state's `root_impurity` —
carries the same `root_impurity` the loop started with (third
conjunct). -/
theorem c8_root_impurity_fixed :
    (∀ (x y : Mat) mf msl cs ct st, mkSplitter x y mf msl cs ct = some st →
        impurity_node ct (y.headD []).length y = some st.rootImpurity) ∧
    (∀ (o : Oracle) st x y b st2, splitStep o st x y = some (b, st2) →
        st2.rootImpurity = st.rootImpurity) ∧
    (∀ (o : Oracle) fuel st acc q res stf,
        buildLoop o fuel st acc q = some (res, stf) →
        stf.rootImpurity = st.rootImpurity) := by
  have hsplit : ∀ (o : Oracle) st x y b st2, splitStep o st x y = some (b, st2) →
      st2.rootImpurity = st.rootImpurity := by
    intro o st x y b st2 h
    unfold splitStep at h
    rcases Option.map_eq_some'.mp h with ⟨b2, _, hb2⟩
    cases hb2
    rfl
  refine ⟨?_, hsplit, ?_⟩
  · intro x y mf msl cs ct st h
    unfold mkSplitter at h
    rcases Option.map_eq_some'.mp h with ⟨ri, hri, hst⟩
    cases hst
    exact hri
  · intro o fuel
    induction fuel with
    | zero =>
      intro st acc q res stf h
      cases q with
      | nil => cases h; rfl
      | cons it rest => cases it; exact absurd h (by simp [buildLoop])
    | succ fuel ih =>
      intro st acc q res stf h
      cases q with
      | nil => cases h; rfl
      | cons it rest =>
        cases it with
        | mk cx cy =>
          rw [buildLoop] at h
          cases hml : makeLeaf st.classTargets st.nTargets cy with
          | none => rw [hml] at h; cases h
          | some lv =>
            rw [hml] at h
            cases hsp : splitStep o st cx cy with
            | none => rw [hsp] at h; cases h
            | some p =>
              rcases p with ⟨⟨fo, t0, sc⟩, st2⟩
              rw [hsp] at h
              dsimp only at h
              have hst2 := hsplit o st cx cy (fo, t0, sc) st2 hsp
              by_cases ht : truthy fo = true
              · rw [if_pos ht] at h
                exact (ih st2 _ _ res stf h).trans hst2
              · rw [if_neg ht] at h
                exact (ih st2 _ _ res stf h).trans hst2

/-- C8 witness: a concrete completed build loop (two training rows, one
regression target, a splitter state with root impurity vector `[1]`):
the final state's root impurity is the initial one. -/
theorem c8_root_impurity_fixed_witness :
    ∃ res stf,
      buildLoop oracleId 5 ⟨2, 1, 1, [], .sqrt, 1, [1], .mean⟩ [] [(xC2, yC2)]
        = some (res, stf) ∧ stf.rootImpurity = ([1] : List ℝ) := by
  have hs : (buildLoop oracleId 5 ⟨2, 1, 1, [], .sqrt, 1, [1], .mean⟩
      [] [(xC2, yC2)]).isSome = true := by
    with_unfolding_all rfl
  rcases Option.isSome_iff_exists.mp hs with ⟨⟨res, stf⟩, hp⟩
  exact ⟨res, stf, hp, c8_root_impurity_fixed.2.2 _ _ _ _ _ _ _ hp⟩

/-- The elements of a list followed by a single appended element, at
an index below the original length. -/
theorem getElem?_append_lt {α : Type} {l1 l2 : List α} {i : Nat}
    (hi : i < l1.length) : (l1 ++ l2)[i]? = l1[i]? := by
  rw [List.getElem?_append, if_pos hi]

/-- The breadth-first index invariant of `buildLoop`: in a completed
loop, the nodes already in `acc` are left unchanged, every pending
queue item `m` is materialized as the node at arena index
`acc.length + m` (carrying exactly that work item's subset), and every
node built from position `acc.length` on satisfies the child-id
invariant `childOk`. -/
theorem buildLoop_index_spec (o : Oracle) :
    ∀ fuel st acc q res stf, buildLoop o fuel st acc q = some (res, stf) →
      (∀ i, i < acc.length → res[i]? = acc[i]?) ∧
      acc.length + q.length ≤ res.length ∧
      (∀ m it, q[m]? = some it →
        ∃ nd, res[acc.length + m]? = some nd ∧ nd.sx = it.1 ∧ nd.sy = it.2) ∧
      (∀ j, acc.length ≤ j → childOk res j) := by
  intro fuel
  induction fuel with
  | zero =>
    intro st acc q res stf h
    cases q with
    | nil =>
      cases h
      refine ⟨fun i _ => rfl, by simp, fun m it hm => by simp at hm,
        fun j hj nd hnd => ?_⟩
      rw [List.getElem?_eq_none hj] at hnd
      cases hnd
    | cons it rest =>
      rcases it with ⟨cx, cy⟩
      exact absurd h (by simp [buildLoop])
  | succ fuel ih =>
    intro st acc q res stf h
    cases q with
    | nil =>
      cases h
      refine ⟨fun i _ => rfl, by simp, fun m it hm => by simp at hm,
        fun j hj nd hnd => ?_⟩
      rw [List.getElem?_eq_none hj] at hnd
      cases hnd
    | cons it rest =>
      rcases it with ⟨cx, cy⟩
      rw [buildLoop] at h
      cases hml : makeLeaf st.classTargets st.nTargets cy with
      | none => rw [hml] at h; cases h
      | some lv =>
        rw [hml] at h
        cases hsp : splitStep o st cx cy with
        | none => rw [hsp] at h; cases h
        | some p =>
          rcases p with ⟨⟨fo, t0, sc⟩, st2⟩
          rw [hsp] at h
          dsimp only at h
          by_cases ht : truthy fo = true
          · -- split branch: two partitions are enqueued
            rw [if_pos ht] at h
            obtain ⟨P1, P2, P3, P4⟩ := ih st2
              (acc ++ [⟨fo, t0, lv, some (acc.length + rest.length + 1),
                some (acc.length + rest.length + 1 + 1), cy.length, cx, cy⟩])
              (rest ++ [partitionLe cx cy (fo.getD 0) (t0.getD 0),
                        partitionGt cx cy (fo.getD 0) (t0.getD 0)]) res stf h
            have hlen1 : (acc ++ [(⟨fo, t0, lv, some (acc.length + rest.length + 1),
                some (acc.length + rest.length + 1 + 1), cy.length, cx, cy⟩ :
                  NodeRec)]).length = acc.length + 1 := by simp
            refine ⟨?_, ?_, ?_, ?_⟩
            · intro i hi
              rw [P1 i (by omega : i < _), getElem?_append_lt hi]
            · have := P2
              rw [hlen1] at this
              simp only [List.length_append, List.length_cons] at this ⊢
              omega
            · intro m itm hm
              cases m with
              | zero =>
                have h0 : res[acc.length]? =
                    some (⟨fo, t0, lv, some (acc.length + rest.length + 1),
                      some (acc.length + rest.length + 1 + 1), cy.length, cx, cy⟩ :
                        NodeRec) := by
                  rw [P1 acc.length (by omega), List.getElem?_concat_length]
                refine ⟨_, by rw [Nat.add_zero]; exact h0, ?_, ?_⟩ <;>
                  (simp only [List.getElem?_cons_zero] at hm; cases hm; rfl)
              | succ m =>
                have hm2 : (rest ++ [partitionLe cx cy (fo.getD 0) (t0.getD 0),
                    partitionGt cx cy (fo.getD 0) (t0.getD 0)])[m]? = some itm := by
                  simp only [List.getElem?_cons_succ] at hm
                  rcases Nat.lt_or_ge m rest.length with hlt | hge
                  · rw [getElem?_append_lt hlt]; exact hm
                  · rw [List.getElem?_eq_none hge] at hm; cases hm
                obtain ⟨nd, hnd, hx, hy⟩ := P3 m itm hm2
                refine ⟨nd, ?_, hx, hy⟩
                rw [hlen1] at hnd
                rw [show acc.length + (m + 1) = acc.length + 1 + m by omega]
                exact hnd
            · intro j hj
              rcases Nat.lt_or_ge j (acc.length + 1) with hlt | hge
              · -- j = acc.length: the Internal node built this step
                have hje : j = acc.length := by omega
                subst hje
                intro nd hnd htr
                have h0 : res[acc.length]? =
                    some (⟨fo, t0, lv, some (acc.length + rest.length + 1),
                      some (acc.length + rest.length + 1 + 1), cy.length, cx, cy⟩ :
                        NodeRec) := by
                  rw [P1 acc.length (by omega), List.getElem?_concat_length]
                rw [h0] at hnd
                cases hnd
                refine ⟨acc.length + rest.length + 1, rfl, rfl, ?_, ?_⟩
                · rw [hlen1] at P2
                  simp only [List.length_append, List.length_cons] at P2
                  omega
                · obtain ⟨ndl, hndl, hlx, hly⟩ := P3 rest.length
                    (partitionLe cx cy (fo.getD 0) (t0.getD 0))
                    (by rw [List.getElem?_append_right (le_refl _)]; simp)
                  obtain ⟨ndr, hndr, hrx, hry⟩ := P3 (rest.length + 1)
                    (partitionGt cx cy (fo.getD 0) (t0.getD 0))
                    (by rw [List.getElem?_append_right
                          (by omega : rest.length ≤ rest.length + 1),
                        show rest.length + 1 - rest.length = 1 by omega]
                        rfl)
                  rw [hlen1] at hndl hndr
                  refine ⟨ndl, ndr, ?_, ?_, ?_, ?_⟩
                  · rw [show acc.length + rest.length + 1 = acc.length + 1 + rest.length
                      by omega]
                    exact hndl
                  · rw [show acc.length + rest.length + 1 + 1 =
                      acc.length + 1 + (rest.length + 1) by omega]
                    exact hndr
                  · show (ndl.sx, ndl.sy) = _
                    rw [hlx, hly]
                  · show (ndr.sx, ndr.sy) = _
                    rw [hrx, hry]
              · exact fun nd hnd htr => P4 j (by rw [hlen1]; omega) nd hnd htr
          · -- leaf branch: nothing is enqueued
            rw [if_neg ht] at h
            obtain ⟨P1, P2, P3, P4⟩ := ih st2
              (acc ++ [⟨fo, t0, lv, none, none, cy.length, cx, cy⟩]) rest res stf h
            have hlen1 : (acc ++ [(⟨fo, t0, lv, none, none, cy.length, cx, cy⟩ :
                NodeRec)]).length = acc.length + 1 := by simp
            refine ⟨?_, ?_, ?_, ?_⟩
            · intro i hi
              rw [P1 i (by omega : i < _), getElem?_append_lt hi]
            · have := P2
              rw [hlen1] at this
              simp only [List.length_cons]
              omega
            · intro m itm hm
              cases m with
              | zero =>
                have h0 : res[acc.length]? =
                    some (⟨fo, t0, lv, none, none, cy.length, cx, cy⟩ : NodeRec) := by
                  rw [P1 acc.length (by omega), List.getElem?_concat_length]
                refine ⟨_, by rw [Nat.add_zero]; exact h0, ?_, ?_⟩ <;>
                  (simp only [List.getElem?_cons_zero] at hm; cases hm; rfl)
              | succ m =>
                simp only [List.getElem?_cons_succ] at hm
                obtain ⟨nd, hnd, hx, hy⟩ := P3 m itm hm
                refine ⟨nd, ?_, hx, hy⟩
                rw [hlen1] at hnd
                rw [show acc.length + (m + 1) = acc.length + 1 + m by omega]
                exact hnd
            · intro j hj
              rcases Nat.lt_or_ge j (acc.length + 1) with hlt | hge
              · have hje : j = acc.length := by omega
                subst hje
                intro nd hnd htr
                have h0 : res[acc.length]? =
                    some (⟨fo, t0, lv, none, none, cy.length, cx, cy⟩ : NodeRec) := by
                  rw [P1 acc.length (by omega), List.getElem?_concat_length]
                rw [h0] at hnd
                cases hnd
                exact absurd htr (by simpa using ht)
              · exact fun nd hnd htr => P4 j (by rw [hlen1]; omega) nd hnd htr

/-- C9: in any completed run of the breadth-first tree builder, the
root work item is materialized at arena index 0, and every node the
builder marked Internal stores child ids `k` and `k+1` (computed as
current node index + queue length + 1 and + 2) that are valid indices
of materialized nodes, and the nodes at those indices were built
exactly from the left and right partitions of the parent's subset —
left then right. -/
theorem c9_child_ids :
    ∀ (o : Oracle) fuel mf msl cs ct (x y : Mat) recs,
      fitTree o fuel mf msl cs ct x y = some recs →
      (∃ nd, recs[0]? = some nd ∧ nd.sx = x ∧ nd.sy = y) ∧
      (∀ j, childOk recs j) := by
  intro o fuel mf msl cs ct x y recs h
  unfold fitTree at h
  cases hmk : mkSplitter x y mf msl cs ct with
  | none => rw [hmk] at h; cases h
  | some st =>
    rw [hmk] at h
    dsimp only at h
    cases hbl : buildLoop o fuel st [] [(x, y)] with
    | none => rw [hbl] at h; cases h
    | some p =>
      rcases p with ⟨res, stf⟩
      rw [hbl] at h
      dsimp only at h
      cases h
      obtain ⟨P1, P2, P3, P4⟩ := buildLoop_index_spec o fuel st [] [(x, y)] _ stf hbl
      refine ⟨?_, fun j => P4 j (Nat.zero_le _)⟩
      obtain ⟨nd, hnd, hx, hy⟩ := P3 0 (x, y) rfl
      exact ⟨nd, by simpa using hnd, hx, hy⟩

/-- C9 witness: the theorem applied to the concrete completed run on
`xC1`/`yC1`, whose tree has an Internal root with children 1 and 2. -/
theorem c9_child_ids_witness :
    ∃ recs, fitTree oracleId 10 .sqrt 2 .mean [] xC1 yC1 = some recs ∧
      (∃ nd, recs[0]? = some nd ∧ nd.sx = xC1 ∧ nd.sy = yC1) ∧
      (∀ j, childOk recs j) := by
  have hs : (fitTree oracleId 10 .sqrt 2 .mean [] xC1 yC1).isSome = true := by
    with_unfolding_all rfl
  rcases Option.isSome_iff_exists.mp hs with ⟨recs, hp⟩
  exact ⟨recs, hp, c9_child_ids oracleId 10 .sqrt 2 .mean [] xC1 yC1 recs hp⟩

/-- A `getElem?` hit is a member. -/
theorem mem_of_getElem_opt {α : Type} {l : List α} {n : ℕ} {a : α}
    (h : l[n]? = some a) : a ∈ l := by
  rcases List.getElem?_eq_some.mp h with ⟨hn, he⟩
  exact he ▸ List.getElem_mem hn

/-- Every in-range `getD` of a list of naturals is at most `natMaxL`. -/
theorem getD_le_natMaxL (l : List ℕ) (j : ℕ) (hj : j < l.length) :
    l.getD j 0 ≤ natMaxL l := by
  rw [List.getD_eq_getElem l 0 hj]
  exact le_natMaxL (List.getElem_mem hj)

/-- `argmaxFirst` of a non-empty list is a valid index. -/
theorem argmaxFirst_lt_length : ∀ {l : List ℕ}, l ≠ [] → argmaxFirst l < l.length := by
  intro l
  induction l with
  | nil => intro h; exact absurd rfl h
  | cons x xs ih =>
    intro _
    rw [argmaxFirst]
    by_cases h : natMaxL xs ≤ x
    · rw [if_pos h]; simp
    · rw [if_neg h]
      have hxs : xs ≠ [] := by
        intro he; subst he; exact h (Nat.zero_le x)
      simpa [Nat.succ_lt_succ_iff] using ih hxs

/-- `argmaxFirst` attains the maximum. -/
theorem argmaxFirst_attains : ∀ (l : List ℕ), l ≠ [] →
    l.getD (argmaxFirst l) 0 = natMaxL l := by
  intro l
  induction l with
  | nil => intro h; exact absurd rfl h
  | cons x xs ih =>
    intro _
    rw [argmaxFirst]
    by_cases h : natMaxL xs ≤ x
    · rw [if_pos h]
      show x = natMaxL (x :: xs)
      show x = max x (natMaxL xs)
      exact (max_eq_left h).symm
    · rw [if_neg h]
      have hxs : xs ≠ [] := by
        intro he; subst he; exact h (Nat.zero_le x)
      show xs.getD (argmaxFirst xs) 0 = max x (natMaxL xs)
      rw [ih hxs]
      exact (max_eq_right (le_of_lt (Nat.lt_of_not_le h))).symm

/-- Entries strictly before `argmaxFirst` are strictly below the
maximum: `argmaxFirst` is the FIRST position of the maximum. -/
theorem getD_lt_of_lt_argmaxFirst : ∀ (l : List ℕ) (j : ℕ), j < argmaxFirst l →
    l.getD j 0 < l.getD (argmaxFirst l) 0 := by
  intro l
  induction l with
  | nil => intro j hj; simp [argmaxFirst] at hj
  | cons x xs ih =>
    intro j hj
    rw [argmaxFirst] at hj ⊢
    by_cases h : natMaxL xs ≤ x
    · rw [if_pos h] at hj; cases hj
    · rw [if_neg h] at hj ⊢
      have hxs : xs ≠ [] := by
        intro he; subst he; exact h (Nat.zero_le x)
      cases j with
      | zero =>
        show x < xs.getD (argmaxFirst xs) 0
        rw [argmaxFirst_attains xs hxs]
        exact Nat.lt_of_not_le h
      | succ j =>
        exact ih j (Nat.lt_of_succ_lt_succ hj)

/-- Membership transfers through `uniqueSorted`. -/
theorem mem_uniqueSorted {l : List ℚ} {a : ℚ} : a ∈ uniqueSorted l ↔ a ∈ l := by
  unfold uniqueSorted
  rw [(List.perm_insertionSort _ _).mem_iff]
  exact List.mem_dedup

/-- `uniqueSorted` is sorted. -/
theorem uniqueSorted_sorted (l : List ℚ) : List.Sorted (· ≤ ·) (uniqueSorted l) :=
  List.sorted_insertionSort _ _

/-- `scipy.stats.mode`, as embedded, returns a most frequent value of
its input, and the smallest one among the most frequent values. -/
theorem scipyMode_spec (l : List ℚ) (v : ℚ) (h : scipyMode l = some v) :
    v ∈ l ∧ (∀ w ∈ l, l.count w ≤ l.count v) ∧
      (∀ w ∈ l, l.count w = l.count v → v ≤ w) := by
  simp only [scipyMode] at h
  rcases List.getElem?_eq_some.mp h with ⟨hjlt, hje⟩
  have hlenc : ((uniqueSorted l).map (fun t => l.count t)).length =
      (uniqueSorted l).length := List.length_map _ _
  have hvmem : v ∈ l := mem_uniqueSorted.mp (hje ▸ List.getElem_mem hjlt)
  have hgj : ((uniqueSorted l).map (fun t => l.count t)).getD
      (argmaxFirst ((uniqueSorted l).map (fun t => l.count t))) 0 = l.count v := by
    rw [List.getD_eq_getElem _ 0 (by rw [hlenc]; exact hjlt)]
    simp only [List.getElem_map]
    rw [hje]
  have hne : ((uniqueSorted l).map (fun t => l.count t)) ≠ [] := by
    intro he
    have h0 : (uniqueSorted l).length = 0 := by rw [← hlenc, he]; rfl
    omega
  have key : ∀ w ∈ l, l.count w ≤ l.count v ∧ (l.count w = l.count v → v ≤ w) := by
    intro w hw
    rcases List.mem_iff_getElem.mp (mem_uniqueSorted.mpr hw) with ⟨m, hm, hme⟩
    have hgm : ((uniqueSorted l).map (fun t => l.count t)).getD m 0 = l.count w := by
      rw [List.getD_eq_getElem _ 0 (by rw [hlenc]; exact hm)]
      simp only [List.getElem_map]
      rw [hme]
    have hle : l.count w ≤ l.count v := by
      rw [← hgm, ← hgj, argmaxFirst_attains _ hne]
      exact getD_le_natMaxL _ m (by rw [hlenc]; exact hm)
    refine ⟨hle, fun heq => ?_⟩
    have hmj : ¬ m < argmaxFirst ((uniqueSorted l).map (fun t => l.count t)) := by
      intro hmj
      have hlt := getD_lt_of_lt_argmaxFirst _ m hmj
      rw [hgm, hgj, heq] at hlt
      exact lt_irrefl _ hlt
    rcases Nat.lt_or_ge (argmaxFirst ((uniqueSorted l).map (fun t => l.count t))) m
      with hlt | hge
    · have hrel := (uniqueSorted_sorted l).rel_get_of_lt
        (show (⟨argmaxFirst ((uniqueSorted l).map (fun t => l.count t)), hjlt⟩ :
          Fin (uniqueSorted l).length) < ⟨m, hm⟩ from by simpa using hlt)
      rw [List.get_eq_getElem, List.get_eq_getElem, hje, hme] at hrel
      exact hrel
    · have hmje : m = argmaxFirst ((uniqueSorted l).map (fun t => l.count t)) := by
        omega
      subst hmje
      exact le_of_eq (hje.symm.trans hme)
  exact ⟨hvmem, fun w hw => (key w hw).1, fun w hw => (key w hw).2⟩

/-- A successful `Option`-monad `mapM` succeeds pointwise, preserving
length and positions. -/
theorem mapM_option_spec {α β : Type} (f : α → Option β) :
    ∀ (l : List α) res, l.mapM f = some res →
      res.length = l.length ∧
      ∀ (i : Nat) (a : α), l[i]? = some a →
        ∃ b, res[i]? = some b ∧ f a = some b := by
  intro l
  induction l with
  | nil =>
    intro res h
    rw [List.mapM_nil] at h
    cases h
    exact ⟨rfl, fun i a ha => by simp at ha⟩
  | cons a l ih =>
    intro res h
    rw [List.mapM_cons] at h
    cases hfa : f a with
    | none => rw [hfa] at h; cases h
    | some b =>
      rw [hfa] at h
      cases hml : l.mapM f with
      | none => rw [hml] at h; cases h
      | some bs =>
        rw [hml] at h
        cases h
        obtain ⟨ihl, ihp⟩ := ih bs hml
        refine ⟨by simp [ihl], fun i x hx => ?_⟩
        cases i with
        | zero =>
          simp only [List.getElem?_cons_zero] at hx
          cases hx
          exact ⟨b, List.getElem?_cons_zero, hfa⟩
        | succ i =>
          simp only [List.getElem?_cons_succ] at hx ⊢
          exact ihp i x hx

/-- C7: in any successful forest prediction, each output row has one
entry per target, and per target the entry reduces the per-tree
predictions (the tree votes) as claimed: for a classification target
it is a mode of the votes — a vote of maximal count — and the smallest
label among the tied modes; for a regression target it is the
arithmetic mean (sum over count) of the votes. -/
theorem c7_forest_reduction :
    ∀ (F : Forest) (x : Mat) out, predictForest F x = some out →
      ∀ (r : Nat) row, x[r]? = some row →
        ∃ preds orow, treeVotes F row = some preds ∧ out[r]? = some orow ∧
          orow.length = F.nTargets ∧
          ∀ i : Nat, i < F.nTargets →
            ((i ∈ F.classTargets →
              ∃ v, orow[i]? = some v ∧
                v ∈ preds.map (fun p => p.getD i 0) ∧
                (∀ w ∈ preds.map (fun p => p.getD i 0),
                  (preds.map (fun p => p.getD i 0)).count w ≤
                    (preds.map (fun p => p.getD i 0)).count v) ∧
                (∀ w ∈ preds.map (fun p => p.getD i 0),
                  (preds.map (fun p => p.getD i 0)).count w =
                    (preds.map (fun p => p.getD i 0)).count v → v ≤ w)) ∧
             (i ∉ F.classTargets →
              orow[i]? = some ((preds.map (fun p => p.getD i 0)).sum /
                ((preds.map (fun p => p.getD i 0)).length : ℚ)))) := by
  intro F x out hp r row hr
  simp only [predictForest] at hp
  obtain ⟨hlen, hpt⟩ := mapM_option_spec _ x out hp
  obtain ⟨orow, horow, hg⟩ := hpt r row hr
  cases htv : treeVotes F row with
  | none => rw [htv] at hg; cases hg
  | some preds =>
    rw [htv] at hg
    have hg2 : (List.range F.nTargets).mapM (fun i =>
        if i ∈ F.classTargets then scipyMode (preds.map (fun p => p.getD i 0))
        else some ((preds.map (fun p => p.getD i 0)).sum /
          ((preds.map (fun p => p.getD i 0)).length : ℚ))) = some orow := hg
    obtain ⟨hlen2, hpt2⟩ := mapM_option_spec _ (List.range F.nTargets) orow hg2
    refine ⟨preds, orow, rfl, horow, by rw [hlen2]; exact List.length_range _, ?_⟩
    intro i hi
    have hri : (List.range F.nTargets)[i]? = some i := by
      simp [List.getElem?_range, hi]
    obtain ⟨b, hb, hfi⟩ := hpt2 i i hri
    constructor
    · intro hic
      rw [if_pos hic] at hfi
      obtain ⟨h1, h2, h3⟩ := scipyMode_spec _ b hfi
      exact ⟨b, hb, h1, h2, h3⟩
    · intro hic
      rw [if_neg hic] at hfi
      cases hfi
      exact hb

/-- C7 witness: the theorem applied to the concrete one-tree forest
`forestC7` on one test row: its single classification vote `3` is the
mode, the smallest among ties, of the vote list `[3]`. -/
theorem c7_forest_reduction_witness :
    ∃ out, predictForest forestC7 [[1]] = some out ∧
      ∃ preds orow, treeVotes forestC7 [1] = some preds ∧ out[0]? = some orow ∧
        orow.length = forestC7.nTargets ∧
        ∀ i : Nat, i < forestC7.nTargets →
          ((i ∈ forestC7.classTargets →
            ∃ v, orow[i]? = some v ∧
              v ∈ preds.map (fun p => p.getD i 0) ∧
              (∀ w ∈ preds.map (fun p => p.getD i 0),
                (preds.map (fun p => p.getD i 0)).count w ≤
                  (preds.map (fun p => p.getD i 0)).count v) ∧
              (∀ w ∈ preds.map (fun p => p.getD i 0),
                (preds.map (fun p => p.getD i 0)).count w =
                  (preds.map (fun p => p.getD i 0)).count v → v ≤ w)) ∧
           (i ∉ forestC7.classTargets →
            orow[i]? = some ((preds.map (fun p => p.getD i 0)).sum /
              ((preds.map (fun p => p.getD i 0)).length : ℚ)))) := by
  have hs : (predictForest forestC7 [[1]]).isSome = true := by
    with_unfolding_all rfl
  rcases Option.isSome_iff_exists.mp hs with ⟨out, hp⟩
  exact ⟨out, hp, c7_forest_reduction forestC7 [[1]] out hp 0 [1] rfl⟩

/-- An `Option`-monad `mapM` whose function succeeds on every member
succeeds. -/
theorem mapM_isSome {α β : Type} (f : α → Option β) :
    ∀ (l : List α), (∀ a ∈ l, (f a).isSome = true) → (l.mapM f).isSome = true := by
  intro l
  induction l with
  | nil => intro _; rw [List.mapM_nil]; rfl
  | cons a l ih =>
    intro h
    rw [List.mapM_cons]
    cases hfa : f a with
    | none =>
      have hha := h a (by simp)
      rw [hfa] at hha
      cases hha
    | some b =>
      have hl := ih (fun a2 ha => h a2 (List.mem_cons_of_mem _ ha))
      cases hml : l.mapM f with
      | none => rw [hml] at hl; cases hl
      | some bs => simp

/-- `bincountI` on non-negative data returns its counts vector. -/
theorem bincountI_of_nonneg (l : List Int) (m : Nat) (h : ∀ z ∈ l, 0 ≤ z) :
    bincountI l m = some ((List.range (max m (if (l.map Int.toNat).isEmpty then 0
      else natMaxL (l.map Int.toNat) + 1))).map
        (fun i => (l.map Int.toNat).count i)) := by
  unfold bincountI
  rw [if_neg ?hc]
  case hc =>
    intro hany
    rcases List.any_eq_true.mp hany with ⟨z, hz, hzlt⟩
    exact absurd (h z hz) (by simpa using hzlt)

/-- `impurity_class` succeeds when every truncated label is
non-negative. -/
theorem impurity_class_isSome (yc : List ℚ) (h : ∀ v ∈ yc, 0 ≤ qtrunc v) :
    (impurity_class yc).isSome = true := by
  unfold impurity_class
  rw [bincountI_of_nonneg (yc.map qtrunc) 0
    (fun z hz => by
      rcases List.mem_map.mp hz with ⟨v, hv, rfl⟩
      exact h v hv)]
  rfl

/-- `makeLeaf` succeeds on a non-empty subset whose classification
columns truncate to non-negative integers. -/
theorem makeLeaf_isSome (ct : List Nat) (nT : Nat) (y : Mat) (hy : 1 ≤ y.length)
    (hc : ∀ i ∈ ct, ∀ v ∈ colD y i, 0 ≤ qtrunc v) :
    (makeLeaf ct nT y).isSome = true := by
  unfold makeLeaf
  apply mapM_isSome
  intro i _
  by_cases hi : i ∈ ct
  · rw [if_pos hi]
    rw [bincountI_of_nonneg ((colD y i).map qtrunc) 0
      (fun z hz => by
        rcases List.mem_map.mp hz with ⟨v, hv, rfl⟩
        exact hc i hi v hv)]
    cases hl : ((colD y i).map qtrunc).map Int.toNat with
    | nil =>
      exfalso
      have h0 := congrArg List.length hl
      simp only [List.length_map, List.length_nil, colD] at h0
      omega
    | cons z zs =>
      simp [argmaxOpt, List.range_eq_nil]
  · rw [if_neg hi]
    rw [if_neg (by omega : ¬ y.length = 0)]
    rfl

/-- `impurity_node` succeeds when the classification columns truncate
to non-negative integers. -/
theorem impurity_node_isSome (ct : List Nat) (nT : Nat) (y : Mat)
    (hc : ∀ i ∈ ct, ∀ v ∈ colD y i, 0 ≤ qtrunc v) :
    (impurity_node ct nT y).isSome = true := by
  unfold impurity_node
  apply mapM_isSome
  intro i _
  by_cases hi : i ∈ ct
  · rw [if_pos hi]
    have hcl := impurity_class_isSome (colD y i) (hc i hi)
    cases h : impurity_class (colD y i) with
    | none => rw [h] at hcl; cases hcl
    | some r => rfl
  · rw [if_neg hi]; rfl

/-- A work item with at most `min_samples_leaf` rows becomes a single
leaf node: the splitter refuses immediately (`NoSplit`, scored `inf`)
and nothing is enqueued. -/
theorem buildLoop_small (o : Oracle) (fuel : Nat) (st : SpState) (cx cy : Mat)
    (hf : 1 ≤ fuel) (hsz : cx.length ≤ st.minSamplesLeaf)
    (hml : (makeLeaf st.classTargets st.nTargets cy).isSome = true) :
    ∃ lv st2, buildLoop o fuel st [] [(cx, cy)] =
      some ([⟨none, none, lv, none, none, cy.length, cx, cy⟩], st2) := by
  cases fuel with
  | zero => omega
  | succ fuel =>
    rw [buildLoop]
    cases hmlv : makeLeaf st.classTargets st.nTargets cy with
    | none => rw [hmlv] at hml; cases hml
    | some lv =>
      have hsp : splitStep o st cx cy =
          some ((none, none, Score.posInf), ⟨st.nTrain, st.nFeatures, st.nTargets,
            st.classTargets, .num (resolveCore st.maxFeatures st.nFeatures),
            st.minSamplesLeaf, st.rootImpurity, st.chooseSplit⟩) := by
        unfold splitStep findBestSplit
        dsimp only
        rw [if_pos hsz]
        rfl
      rw [hsp]
      dsimp only
      rw [if_neg (by simp [truthy] : ¬ truthy none = true)]
      exact ⟨lv, _, by rw [buildLoop]; exact rfl⟩

/-- A training set with at most `min_samples_leaf` rows yields a
single-leaf tree. -/
theorem fitTree_small (o : Oracle) (fuel : Nat) (mf : MaxF) (msl : Nat)
    (cs : ChooseSplit) (ct : List Nat) (x y : Mat)
    (hf : 1 ≤ fuel) (hx : x.length ≤ msl) (hy : 1 ≤ y.length)
    (hc : ∀ i ∈ ct, ∀ v ∈ colD y i, 0 ≤ qtrunc v) :
    ∃ lv, fitTree o fuel mf msl cs ct x y =
      some [⟨none, none, lv, none, none, y.length, x, y⟩] := by
  have hin := impurity_node_isSome ct (y.headD []).length y hc
  cases hni : impurity_node ct (y.headD []).length y with
  | none => rw [hni] at hin; cases hin
  | some ri =>
    have hmk : mkSplitter x y mf msl cs ct =
        some ⟨x.length, (x.headD []).length, (y.headD []).length,
          ct, mf, msl, ri, cs⟩ := by
      unfold mkSplitter
      dsimp only
      rw [hni]
      rfl
    obtain ⟨lv, st2, hbl⟩ := buildLoop_small o fuel
      ⟨x.length, (x.headD []).length, (y.headD []).length, ct, mf, msl, ri, cs⟩
      x y hf hx (makeLeaf_isSome ct (y.headD []).length y hy hc)
    refine ⟨lv, ?_⟩
    unfold fitTree
    rw [hmk]
    dsimp only
    rw [hbl]

/-- C4 counterexample: `MixedRandomForest.fit` performs no input
validation.  On a 1-row training set with the default
`min_samples_leaf = 5` — fewer rows than `min_samples_leaf` — fit
succeeds (returns a forest) instead of reporting a fatal error. -/
theorem c4_no_validation_counterexample :
    xC4.length < cfgC4.minSamplesLeaf ∧
      (fitForest oracleId 5 cfgC4 xC4 yC4).isSome = true :=
  ⟨by decide, by with_unfolding_all rfl⟩

/-- C4 amended: fit does not validate its input; in particular, for any
well-formed input with `1 ≤ n_rows ≤ min_samples_leaf` (and
classification labels truncating to non-negative integers, so that the
numeric kernel raises nowhere) fit SUCCEEDS, and every tree of the
resulting forest is a single leaf node.  Mismatched or empty inputs
fail later, inside the computation, not before it. -/
theorem c4_no_validation_small_input_amended :
    ∀ (o : Oracle) (fuel : Nat) (cfg : ForestCfg) (x y : Mat),
      1 ≤ fuel → x.length = y.length → 1 ≤ x.length →
      x.length ≤ cfg.minSamplesLeaf →
      (∀ i ∈ cfg.classTargets, ∀ v ∈ colD y i, 0 ≤ qtrunc v) →
      (∀ t : Nat, (o.pickRows t x.length).length = x.length ∧
            ∀ j ∈ o.pickRows t x.length, j < x.length) →
      ∃ F, fitForest o fuel cfg x y = some F ∧
        F.trees.length = cfg.nEstimators ∧
        ∀ tr ∈ F.trees, tr.length = 1 ∧
          ∀ nd ∈ tr, nd.l = none ∧ nd.r = none ∧ truthy nd.f = false := by
  intro o fuel cfg x y hf hxy hx1 hxm hc ho
  have htree : ∀ t : Nat, ∃ lv,
      fitTree o fuel cfg.maxFeatures cfg.minSamplesLeaf cfg.chooseSplit
        cfg.classTargets ((o.pickRows t x.length).map (fun j => x.getD j []))
        ((o.pickRows t x.length).map (fun j => y.getD j [])) =
      some [⟨none, none, lv, none, none,
        ((o.pickRows t x.length).map (fun j => y.getD j [])).length,
        (o.pickRows t x.length).map (fun j => x.getD j []),
        (o.pickRows t x.length).map (fun j => y.getD j [])⟩] := by
    intro t
    obtain ⟨hlen, hmem⟩ := ho t
    have hsy1 : 1 ≤ ((o.pickRows t x.length).map (fun j => y.getD j [])).length := by
      rw [List.length_map, hlen]; exact hx1
    have hsxlen : ((o.pickRows t x.length).map (fun j => x.getD j [])).length ≤
        cfg.minSamplesLeaf := by
      rw [List.length_map, hlen]; exact hxm
    have hcs : ∀ i ∈ cfg.classTargets,
        ∀ v ∈ colD ((o.pickRows t x.length).map (fun j => y.getD j [])) i,
          0 ≤ qtrunc v := by
      intro i hi v hv
      simp only [colD, List.map_map] at hv
      rcases List.mem_map.mp hv with ⟨j, hj, rfl⟩
      apply hc i hi
      have hjy : j < y.length := by rw [← hxy]; exact hmem j hj
      have hry : y.getD j [] ∈ y := by
        rw [List.getD_eq_getElem y [] hjy]
        exact List.getElem_mem hjy
      exact List.mem_map.mpr ⟨y.getD j [], hry, rfl⟩
    exact fitTree_small o fuel cfg.maxFeatures cfg.minSamplesLeaf cfg.chooseSplit
      cfg.classTargets _ _ hf hsxlen hsy1 hcs
  have hms : ((List.range cfg.nEstimators).mapM (fun i =>
      fitTree o fuel cfg.maxFeatures cfg.minSamplesLeaf cfg.chooseSplit
        cfg.classTargets ((o.pickRows i x.length).map (fun j => x.getD j []))
        ((o.pickRows i x.length).map (fun j => y.getD j [])))).isSome = true := by
    apply mapM_isSome
    intro t _
    obtain ⟨lv, he⟩ := htree t
    rw [he]
    rfl
  cases hmt : (List.range cfg.nEstimators).mapM (fun i =>
      fitTree o fuel cfg.maxFeatures cfg.minSamplesLeaf cfg.chooseSplit
        cfg.classTargets ((o.pickRows i x.length).map (fun j => x.getD j []))
        ((o.pickRows i x.length).map (fun j => y.getD j []))) with
  | none => rw [hmt] at hms; cases hms
  | some trees =>
    obtain ⟨htl, htp⟩ := mapM_option_spec _ _ _ hmt
    refine ⟨⟨cfg.nEstimators, (y.headD []).length, cfg.classTargets,
      ((List.range (y.headD []).length).filter
        (fun i => decide (i ∈ cfg.classTargets))).map
          (fun i => (i, uniqueSorted (colD y i))), trees⟩, ?_, ?_, ?_⟩
    · unfold fitForest
      dsimp only
      rw [hmt]
      rfl
    · show trees.length = cfg.nEstimators
      rw [htl, List.length_range]
    · show ∀ tr ∈ trees, _
      intro tr htr
      rcases List.mem_iff_getElem.mp htr with ⟨m, hm, hme⟩
      have hrm : (List.range cfg.nEstimators)[m]? = some m := by
        have hmn : m < cfg.nEstimators := by
          rw [htl, List.length_range] at hm; exact hm
        simp [List.getElem?_range, hmn]
      obtain ⟨tr2, htr2, hftr⟩ := htp m m hrm
      have htr2e : tr2 = tr := by
        rw [List.getElem?_eq_some] at htr2
        rcases htr2 with ⟨h1, h2⟩
        rw [← hme]
        exact h2.symm
      subst htr2e
      obtain ⟨lv, he⟩ := htree m
      rw [he] at hftr
      cases hftr
      exact ⟨rfl, fun nd hnd => by
        rcases List.mem_singleton.mp hnd with rfl
        exact ⟨rfl, rfl, rfl⟩⟩

/-- C4 witness: the amended theorem applied to the concrete 1-row
input with `min_samples_leaf = 5`: fit succeeds with one single-leaf
tree. -/
theorem c4_no_validation_small_input_amended_witness :
    ∃ F, fitForest oracleId 5 cfgC4 xC4 yC4 = some F ∧
      F.trees.length = cfgC4.nEstimators ∧
      ∀ tr ∈ F.trees, tr.length = 1 ∧
        ∀ nd ∈ tr, nd.l = none ∧ nd.r = none ∧ truthy nd.f = false := by
  refine c4_no_validation_small_input_amended oracleId 5 cfgC4 xC4 yC4
    (by omega) (by decide) (by decide) (by decide) ?_ ?_
  · intro i hi
    simp [cfgC4] at hi
  · intro t
    constructor
    · show (List.range xC4.length).length = xC4.length
      simp
    · intro j hj
      show j < xC4.length
      have hj2 : j ∈ List.range xC4.length := hj
      simpa using hj2

/-- Classification entries of a leaf value are natural numbers: the
stored value is an `np.argmax` output (or the out-of-range default 0). -/
theorem makeLeaf_nat (ct : List Nat) (nT : Nat) (y : Mat) (v : List ℚ)
    (h : makeLeaf ct nT y = some v) :
    ∀ i ∈ ct, ∃ k : ℕ, v.getD i 0 = (k : ℚ) := by
  intro i hi
  obtain ⟨hlen, hpt⟩ := mapM_option_spec _ _ _ h
  rcases Nat.lt_or_ge i nT with hlt | hge
  · have hri : (List.range nT)[i]? = some i := by simp [List.getElem?_range, hlt]
    obtain ⟨b, hb, hfb⟩ := hpt i i hri
    rw [if_pos hi] at hfb
    cases hbc : bincountI ((colD y i).map qtrunc) 0 with
    | none => rw [hbc] at hfb; cases hfb
    | some counts =>
      rw [hbc] at hfb
      dsimp only at hfb
      cases hao : argmaxOpt counts with
      | none => rw [hao] at hfb; cases hfb
      | some m =>
        rw [hao] at hfb
        cases hfb
        refine ⟨m, ?_⟩
        rw [List.getD_eq_getElem v 0 (by rw [hlen, List.length_range]; exact hlt)]
        exact (List.getElem?_eq_some.mp hb).2
  · refine ⟨0, ?_⟩
    rw [List.getD_eq_default]
    · rfl
    · rw [hlen, List.length_range]; exact hge

/-- `splitStep` does not change the stored classification-target set. -/
theorem splitStep_classTargets (o : Oracle) (st : SpState) (x y : Mat)
    (b : Best) (st2 : SpState) (h : splitStep o st x y = some (b, st2)) :
    st2.classTargets = st.classTargets := by
  unfold splitStep at h
  rcases Option.map_eq_some'.mp h with ⟨b2, _, hb2⟩
  cases hb2
  rfl

/-- Every node emitted by the build loop has natural-number leaf
values at the classification positions. -/
theorem buildLoop_leaf_nat (o : Oracle) (ct : List Nat) :
    ∀ fuel st acc q res stf, buildLoop o fuel st acc q = some (res, stf) →
      st.classTargets = ct →
      (∀ rec ∈ acc, ∀ i ∈ ct, ∃ k : ℕ, rec.v.getD i 0 = (k : ℚ)) →
      ∀ rec ∈ res, ∀ i ∈ ct, ∃ k : ℕ, rec.v.getD i 0 = (k : ℚ) := by
  intro fuel
  induction fuel with
  | zero =>
    intro st acc q res stf h hct hacc
    cases q with
    | nil => cases h; exact hacc
    | cons it rest =>
      rcases it with ⟨cx, cy⟩
      exact absurd h (by simp [buildLoop])
  | succ fuel ih =>
    intro st acc q res stf h hct hacc
    cases q with
    | nil => cases h; exact hacc
    | cons it rest =>
      rcases it with ⟨cx, cy⟩
      rw [buildLoop] at h
      cases hml : makeLeaf st.classTargets st.nTargets cy with
      | none => rw [hml] at h; cases h
      | some lv =>
        rw [hml] at h
        cases hsp : splitStep o st cx cy with
        | none => rw [hsp] at h; cases h
        | some p =>
          rcases p with ⟨⟨fo, t0, sc⟩, st2⟩
          rw [hsp] at h
          dsimp only at h
          have hct2 : st2.classTargets = ct :=
            (splitStep_classTargets o st cx cy (fo, t0, sc) st2 hsp).trans hct
          have hlv : ∀ i ∈ ct, ∃ k : ℕ, lv.getD i 0 = (k : ℚ) := by
            rw [← hct]
            exact makeLeaf_nat st.classTargets st.nTargets cy lv hml
          by_cases ht : truthy fo = true
          · rw [if_pos ht] at h
            refine ih st2 _ _ res stf h hct2 ?_
            intro rec hrec
            rcases List.mem_append.mp hrec with hrec | hrec
            · exact hacc rec hrec
            · rcases List.mem_singleton.mp hrec with rfl
              exact hlv
          · rw [if_neg ht] at h
            refine ih st2 _ _ res stf h hct2 ?_
            intro rec hrec
            rcases List.mem_append.mp hrec with hrec | hrec
            · exact hacc rec hrec
            · rcases List.mem_singleton.mp hrec with rfl
              exact hlv

/-- Every node of a fitted tree has natural-number leaf values at the
classification positions. -/
theorem fitTree_leaf_nat (o : Oracle) (fuel : Nat) (mf : MaxF) (msl : Nat)
    (cs : ChooseSplit) (ct : List Nat) (x y : Mat) (recs : List NodeRec)
    (h : fitTree o fuel mf msl cs ct x y = some recs) :
    ∀ rec ∈ recs, ∀ i ∈ ct, ∃ k : ℕ, rec.v.getD i 0 = (k : ℚ) := by
  unfold fitTree at h
  cases hmk : mkSplitter x y mf msl cs ct with
  | none => rw [hmk] at h; cases h
  | some st =>
    rw [hmk] at h
    dsimp only at h
    cases hbl : buildLoop o fuel st [] [(x, y)] with
    | none => rw [hbl] at h; cases h
    | some p =>
      rcases p with ⟨res, stf⟩
      rw [hbl] at h
      dsimp only at h
      cases h
      have hct : st.classTargets = ct := by
        unfold mkSplitter at hmk
        rcases Option.map_eq_some'.mp hmk with ⟨ri, _, hst⟩
        cases hst
        rfl
      exact buildLoop_leaf_nat o ct fuel st [] [(x, y)] _ stf hbl hct
        (fun rec hrec => absurd hrec (List.not_mem_nil rec))

/-- A successful traversal returns the value vector of some node of
the arena. -/
theorem traverseRow_mem (recs : List NodeRec) :
    ∀ fuel idx row out, traverseRow recs fuel idx row = some out →
      ∃ rec ∈ recs, out = rec.v := by
  intro fuel
  induction fuel with
  | zero => intro idx row out h; cases h
  | succ fuel ih =>
    intro idx row out h
    rw [traverseRow] at h
    cases hnd : recs[idx]? with
    | none => rw [hnd] at h; cases h
    | some nd =>
      rw [hnd] at h
      dsimp only at h
      by_cases ht : truthy nd.f = true
      · rw [if_pos ht] at h
        by_cases hle : row.getD (nd.f.getD 0) 0 ≤ nd.t.getD 0
        · rw [if_pos hle] at h
          exact ih _ row out h
        · rw [if_neg hle] at h
          exact ih _ row out h
      · rw [if_neg ht] at h
        cases h
        exact ⟨nd, mem_of_getElem_opt hnd, rfl⟩

/-- A list-map over `range` sums like the corresponding finite sum. -/
theorem listMapRangeSum {M : Type} [AddCommMonoid M] (f : ℕ → M) :
    ∀ n : ℕ, ((List.range n).map f).sum = ∑ i ∈ Finset.range n, f i := by
  intro n
  induction n with
  | zero => simp
  | succ n ih =>
    rw [List.range_succ, List.map_append, List.sum_append, Finset.sum_range_succ, ih]
    simp

/-- Counting every value below a bound over `range` recovers the list
length. -/
theorem sum_range_count (B : ℕ) :
    ∀ (l : List ℕ), (∀ x ∈ l, x < B) →
      ∑ i ∈ Finset.range B, l.count i = l.length := by
  intro l
  induction l with
  | nil => intro _; simp
  | cons a l ih =>
    intro h
    have ha : a ∈ Finset.range B := Finset.mem_range.mpr (h a (by simp))
    have hcnt : ∀ i : ℕ, (a :: l).count i = l.count i + if i = a then 1 else 0 := by
      intro i
      rcases eq_or_ne i a with rfl | hne
      · simp [List.count_cons]
      · simp [List.count_cons, hne, Ne.symm hne]
    calc ∑ i ∈ Finset.range B, (a :: l).count i
        = ∑ i ∈ Finset.range B, (l.count i + if i = a then 1 else 0) := by
          exact Finset.sum_congr rfl (fun i _ => hcnt i)
      _ = (∑ i ∈ Finset.range B, l.count i) +
          (∑ i ∈ Finset.range B, if i = a then 1 else 0) := by
          rw [Finset.sum_add_distrib]
      _ = (∑ i ∈ Finset.range B, l.count i) + 1 := by
          congr 1
          rw [Finset.sum_ite_eq' (Finset.range B) a (fun _ => 1), if_pos ha]
      _ = l.length + 1 := by
          rw [ih (fun x hx => h x (by simp [hx]))]
      _ = (a :: l).length := by simp

/-- Structure of a fitted forest: it keeps the configured estimator
count and classification targets, holds exactly `n_estimators` trees,
and every tree is the result of a tree fit with the forest's
configuration. -/
theorem fitForest_spec (o : Oracle) (fuel : Nat) (cfg : ForestCfg) (x y : Mat)
    (F : Forest) (h : fitForest o fuel cfg x y = some F) :
    F.nEstimators = cfg.nEstimators ∧ F.classTargets = cfg.classTargets ∧
    F.trees.length = cfg.nEstimators ∧
    ∀ tr ∈ F.trees, ∃ sx sy,
      fitTree o fuel cfg.maxFeatures cfg.minSamplesLeaf cfg.chooseSplit
        cfg.classTargets sx sy = some tr := by
  unfold fitForest at h
  dsimp only at h
  cases hmt : (List.range cfg.nEstimators).mapM (fun i =>
      fitTree o fuel cfg.maxFeatures cfg.minSamplesLeaf cfg.chooseSplit
        cfg.classTargets ((o.pickRows i x.length).map (fun j => x.getD j []))
        ((o.pickRows i x.length).map (fun j => y.getD j []))) with
  | none => rw [hmt] at h; cases h
  | some trees =>
    rw [hmt] at h
    cases h
    obtain ⟨htl, htp⟩ := mapM_option_spec _ _ _ hmt
    refine ⟨rfl, rfl, by rw [htl, List.length_range], ?_⟩
    intro tr htr
    rcases List.mem_iff_getElem.mp htr with ⟨m, hm, hme⟩
    have hrm : (List.range cfg.nEstimators)[m]? = some m := by
      have hmn : m < cfg.nEstimators := by
        rw [htl, List.length_range] at hm; exact hm
      simp [List.getElem?_range, hmn]
    obtain ⟨tr2, htr2, hftr⟩ := htp m m hrm
    have htr2e : tr2 = tr := by
      rcases List.getElem?_eq_some.mp htr2 with ⟨h1, h2⟩
      rw [← hme]
      exact h2.symm
    subst htr2e
    exact ⟨_, _, hftr⟩

/-- Dividing a cast count vector entrywise and summing is summing then
dividing. -/
theorem sum_map_natCast_div (l : List ℕ) (d : ℚ) :
    (l.map (fun c : ℕ => (c : ℚ) / d)).sum = ((l.sum : ℕ) : ℚ) / d := by
  induction l with
  | nil => simp
  | cons a l ih =>
    simp only [List.map_cons, List.sum_cons, ih, List.sum_cons]
    push_cast
    rw [add_div]

/-- C6 amended: in any successful forest `predict_proba`, for every
test row and every classification target, the probability cell is a
vector with non-negative entries summing to exactly 1, whose length is
NOT always the number of distinct training labels but
`max(number of known labels, 1 + largest label voted by any tree)` —
the numpy `bincount(votes, minlength=labels.size)` length. -/
theorem c6_predict_proba_amended :
    ∀ (o : Oracle) (fuel : Nat) (cfg : ForestCfg) (x y : Mat) (F : Forest)
      (xt : Mat) (out : List (List (List ℚ))),
      fitForest o fuel cfg x y = some F →
      1 ≤ cfg.nEstimators →
      predictProbaForest F xt = some out →
      ∀ (r : Nat) (row : List ℚ), xt[r]? = some row →
        ∃ orow preds, out[r]? = some orow ∧ treeVotes F row = some preds ∧
          preds.length = F.nEstimators ∧
          ∀ i : Nat, i < F.nTargets → i ∈ F.classTargets →
            ∃ vec, orow[i]? = some vec ∧
              (∀ p ∈ vec, 0 ≤ p) ∧
              vec.sum = 1 ∧
              vec.length = max (((F.classLabels.lookup i).getD []).length)
                (natMaxL ((preds.map (fun p => p.getD i 0)).map
                  (fun v => (qtrunc v).toNat)) + 1) := by
  intro o fuel cfg x y F xt out hF hne hpp r row hr
  obtain ⟨hnE, hct, htl, htrees⟩ := fitForest_spec o fuel cfg x y F hF
  simp only [predictProbaForest] at hpp
  obtain ⟨hplen, hppt⟩ := mapM_option_spec _ xt out hpp
  obtain ⟨orow, horow, hg⟩ := hppt r row hr
  cases htv : treeVotes F row with
  | none => rw [htv] at hg; cases hg
  | some preds =>
    rw [htv] at hg
    have hg2 : (List.range F.nTargets).mapM (fun i =>
        if i ∈ F.classTargets then
          (bincountI ((preds.map (fun p => p.getD i 0)).map qtrunc)
              ((F.classLabels.lookup i).getD []).length).map
            (fun counts => counts.map (fun c : ℕ => (c : ℚ) / (F.nEstimators : ℚ)))
        else
          some [(preds.map (fun p => p.getD i 0)).sum /
            (((preds.map (fun p => p.getD i 0)).length : ℕ) : ℚ)]) = some orow := hg
    obtain ⟨holen, hopt⟩ := mapM_option_spec _ _ _ hg2
    obtain ⟨hpdl, hpdt⟩ := mapM_option_spec _ _ _ htv
    have hpredsLen : preds.length = F.nEstimators := by
      rw [hpdl, htl, hnE]
    refine ⟨orow, preds, horow, rfl, hpredsLen, ?_⟩
    intro i hi hic
    have hri : (List.range F.nTargets)[i]? = some i := by
      simp [List.getElem?_range, hi]
    obtain ⟨vec, hvec, hfi⟩ := hopt i i hri
    rw [if_pos hic] at hfi
    have hvotenat : ∀ v ∈ preds.map (fun p => p.getD i 0), ∃ k : ℕ, v = (k : ℚ) := by
      intro v hv
      rcases List.mem_map.mp hv with ⟨p, hp, rfl⟩
      rcases List.mem_iff_getElem.mp hp with ⟨m, hmp, hpe⟩
      have hmtr : m < F.trees.length := by
        rw [← hpdl]; exact hmp
      have htm : F.trees[m]? = some F.trees[m] := List.getElem?_eq_some.mpr ⟨hmtr, rfl⟩
      obtain ⟨p2, hp2, hpred⟩ := hpdt m (F.trees[m]) htm
      have hp2e : p2 = p := by
        rcases List.getElem?_eq_some.mp hp2 with ⟨h1, h2⟩
        rw [← hpe]
        exact h2.symm
      subst hp2e
      obtain ⟨rec, hrec, hout⟩ := traverseRow_mem (F.trees[m]) _ _ _ p2 hpred
      obtain ⟨_, _, hftm⟩ := htrees (F.trees[m]) (List.getElem_mem hmtr)
      have hnat := fitTree_leaf_nat o fuel cfg.maxFeatures cfg.minSamplesLeaf
        cfg.chooseSplit cfg.classTargets _ _ _ hftm rec hrec i (by rw [← hct]; exact hic)
      rw [hout]
      exact hnat
    have hqnn : ∀ z ∈ (preds.map (fun p => p.getD i 0)).map qtrunc, 0 ≤ z := by
      intro z hz
      rcases List.mem_map.mp hz with ⟨v, hv, rfl⟩
      rcases hvotenat v hv with ⟨k, rfl⟩
      rw [qtrunc_natCast]
      exact Int.natCast_nonneg k
    rw [bincountI_of_nonneg _ _ hqnn] at hfi
    rw [Option.map_some'] at hfi
    cases hfi
    -- the vote list is non-empty, so the bincount length is max(minlength, maxvote+1)
    have hvne : (((preds.map (fun p => p.getD i 0)).map qtrunc).map Int.toNat).isEmpty
        = false := by
      have hlen : (((preds.map (fun p => p.getD i 0)).map qtrunc).map Int.toNat).length
          = preds.length := by simp
      cases hcl : ((preds.map (fun p => p.getD i 0)).map qtrunc).map Int.toNat with
      | nil =>
        exfalso
        rw [hcl] at hlen
        simp only [List.length_nil] at hlen
        omega
      | cons z zs => rfl
    refine ⟨_, hvec, ?_, ?_, ?_⟩
    · intro p hp
      rcases List.mem_map.mp hp with ⟨c, _, rfl⟩
      positivity
    · rw [sum_map_natCast_div, listMapRangeSum]
      rw [sum_range_count _ _ ?hbound]
      case hbound =>
        intro xv hxv
        have hle := le_natMaxL hxv
        rw [hvne]
        simp only [Bool.false_eq_true, if_false]
        omega
      · rw [List.length_map, List.length_map, List.length_map, hpredsLen]
        rw [div_self]
        rw [Nat.cast_ne_zero]
        omega
    · rw [List.length_map, List.length_map, List.length_range, hvne]
      simp only [Bool.false_eq_true, if_false]
      simp only [List.map_map]
      rfl

/-- C6 counterexample: training a one-tree forest on the single
classification label 2 (so the set of distinct labels observed in the
training `Y` has size 1), `predict_proba` returns the probability
vector `[0, 0, 1]` of length 3 — `np.bincount` sizes the vector by
`max(minlength, largest vote + 1)`, not by the number of distinct
labels.  The entries still sum to 1 and are non-negative. -/
theorem c6_vector_length_counterexample :
    (fitForest oracleId 5 cfgC6 xC6 yC6).bind
        (fun F => predictProbaForest F [[7]]) = some [[[0, 0, 1]]] ∧
    (fitForest oracleId 5 cfgC6 xC6 yC6).map
        (fun F => ((F.classLabels.lookup 0).getD []).length) = some 1 ∧
    ([(0 : ℚ), 0, 1].length = 3) ∧ (3 : Nat) ≠ 1 := by
  refine ⟨by with_unfolding_all rfl, by with_unfolding_all rfl, rfl, by omega⟩

/-- C6 witness: the amended theorem applied to the concrete run of the
counterexample: the probability cell satisfies non-negativity, sums to
1, and has the amended `max(label count, 1 + largest vote)` length. -/
theorem c6_predict_proba_amended_witness :
    ∃ F out, fitForest oracleId 5 cfgC6 xC6 yC6 = some F ∧
      predictProbaForest F [[7]] = some out ∧
      (∃ orow preds, out[0]? = some orow ∧ treeVotes F [7] = some preds ∧
        preds.length = F.nEstimators ∧
        ∀ i : Nat, i < F.nTargets → i ∈ F.classTargets →
          ∃ vec, orow[i]? = some vec ∧ (∀ p ∈ vec, 0 ≤ p) ∧ vec.sum = 1 ∧
            vec.length = max (((F.classLabels.lookup i).getD []).length)
              (natMaxL ((preds.map (fun p => p.getD i 0)).map
                (fun v => (qtrunc v).toNat)) + 1)) := by
  have hsF : (fitForest oracleId 5 cfgC6 xC6 yC6).isSome = true := by
    with_unfolding_all rfl
  rcases Option.isSome_iff_exists.mp hsF with ⟨F, hF⟩
  have hcomp : (fitForest oracleId 5 cfgC6 xC6 yC6).bind
      (fun F2 => predictProbaForest F2 [[7]]) = some [[[0, 0, 1]]] := by
    with_unfolding_all rfl
  rw [hF] at hcomp
  have hcomp2 : predictProbaForest F [[7]] = some [[[0, 0, 1]]] := hcomp
  exact ⟨F, [[[0, 0, 1]]], hF, hcomp2,
    c6_predict_proba_amended oracleId 5 cfgC6 xC6 yC6 F [[7]] _ hF (by decide)
      hcomp2 0 [7] rfl⟩

/-- Fold upper bound: a fold of `max` stays below any common bound. -/
theorem foldr_max_le (v : ℚ) : ∀ (l : List ℚ) (d : ℚ), d ≤ v → (∀ x ∈ l, x ≤ v) →
    l.foldr max d ≤ v := by
  intro l
  induction l with
  | nil => intro d hd _; exact hd
  | cons a l ih =>
    intro d hd h
    exact max_le (h a (by simp)) (ih d hd (fun x hx => h x (by simp [hx])))

/-- Fold membership bound: every member is below the fold of `max`. -/
theorem le_foldr_max : ∀ (l : List ℚ) (d x : ℚ), x ∈ l → x ≤ l.foldr max d := by
  intro l
  induction l with
  | nil => intro d x hx; cases hx
  | cons a l ih =>
    intro d x hx
    rcases List.mem_cons.mp hx with rfl | hx
    · exact le_max_left _ _
    · exact le_trans (ih d x hx) (le_max_right _ _)

/-- `listMax` of a list is `v` when `v` is a member bounding the list. -/
theorem listMax_eq_of (l : List ℚ) (v : ℚ) (hv : v ∈ l) (h : ∀ x ∈ l, x ≤ v) :
    listMax l = v := by
  cases l with
  | nil => cases hv
  | cons a l =>
    refine le_antisymm ?_ (le_foldr_max _ _ _ hv)
    exact foldr_max_le v _ _ (h a (by simp)) h

/-- Fold lower bound: a fold of `min` stays above any common bound. -/
theorem le_foldr_min (v : ℚ) : ∀ (l : List ℚ) (d : ℚ), v ≤ d → (∀ x ∈ l, v ≤ x) →
    v ≤ l.foldr min d := by
  intro l
  induction l with
  | nil => intro d hd _; exact hd
  | cons a l ih =>
    intro d hd h
    exact le_min (h a (by simp)) (ih d hd (fun x hx => h x (by simp [hx])))

/-- Fold membership bound: the fold of `min` is below every member. -/
theorem foldr_min_le : ∀ (l : List ℚ) (d x : ℚ), x ∈ l → l.foldr min d ≤ x := by
  intro l
  induction l with
  | nil => intro d x hx; cases hx
  | cons a l ih =>
    intro d x hx
    rcases List.mem_cons.mp hx with rfl | hx
    · exact min_le_left _ _
    · exact le_trans (min_le_right _ _) (ih d x hx)

/-- `listMin` of a list is `v` when `v` is a member bounded by the list. -/
theorem listMin_eq_of (l : List ℚ) (v : ℚ) (hv : v ∈ l) (h : ∀ x ∈ l, v ≤ x) :
    listMin l = v := by
  cases l with
  | nil => cases hv
  | cons a l =>
    refine le_antisymm (foldr_min_le _ _ _ hv) ?_
    exact le_foldr_min v _ _ (h a (by simp)) h

/-- Column 0 of the C3 matrix is the list `0, …, 99`. -/
theorem colD_yC3 : colD yC3 0 = qrange 100 := by
  unfold colD yC3 qrange
  rw [List.map_map]
  exact List.map_congr_left (fun k _ => rfl)

/-- The minimum of `0, …, 99` is 0. -/
theorem listMin_qrange : listMin (qrange 100) = 0 := by
  refine listMin_eq_of _ 0 ?_ ?_
  · unfold qrange
    exact List.mem_map.mpr ⟨0, by simp, rfl⟩
  · intro x hx
    rcases List.mem_map.mp hx with ⟨k, _, rfl⟩
    positivity

/-- The maximum of `0, …, 99` is 99. -/
theorem listMax_qrange : listMax (qrange 100) = 99 := by
  refine listMax_eq_of _ 99 ?_ ?_
  · unfold qrange
    refine List.mem_map.mpr ⟨99, by simp, by norm_num⟩
  · intro x hx
    rcases List.mem_map.mp hx with ⟨k, hk, rfl⟩
    have hk99 : k ≤ 99 := by
      have := List.mem_range.mp hk
      omega
    exact_mod_cast hk99

/-- The minimum entry of the whole C3 matrix is 0. -/
theorem listMin_yC3_flat : listMin yC3.flatten = 0 := by
  refine listMin_eq_of _ 0 ?_ ?_
  · rw [List.mem_flatten]
    refine ⟨[(0 : ℚ), 198], ?_, by simp⟩
    unfold yC3
    exact List.mem_map.mpr ⟨0, by simp, by norm_num⟩
  · intro x hx
    rw [List.mem_flatten] at hx
    rcases hx with ⟨row, hrow, hxr⟩
    unfold yC3 at hrow
    rcases List.mem_map.mp hrow with ⟨k, _, rfl⟩
    rcases List.mem_cons.mp hxr with rfl | hxr
    · positivity
    · rcases List.mem_singleton.mp (by simpa using hxr) with rfl
      split <;> norm_num

/-- The maximum entry of the whole C3 matrix is 198 (column 1 holds it). -/
theorem listMax_yC3_flat : listMax yC3.flatten = 198 := by
  refine listMax_eq_of _ 198 ?_ ?_
  · rw [List.mem_flatten]
    refine ⟨[(0 : ℚ), 198], ?_, by simp⟩
    unfold yC3
    exact List.mem_map.mpr ⟨0, by simp, by norm_num⟩
  · intro x hx
    rw [List.mem_flatten] at hx
    rcases hx with ⟨row, hrow, hxr⟩
    unfold yC3 at hrow
    rcases List.mem_map.mp hrow with ⟨k, hk, rfl⟩
    rcases List.mem_cons.mp hxr with rfl | hxr
    · have hk99 : k ≤ 99 := by
        have := List.mem_range.mp hk
        omega
      have : (k : ℚ) ≤ 99 := by exact_mod_cast hk99
      linarith
    · rcases List.mem_singleton.mp (by simpa using hxr) with rfl
      split <;> norm_num

/-- The bin of the value `k` in the 100-bin histogram over `[0, 99]` is
`k` itself. -/
theorem binIdx_cast (k : ℕ) (hk : k < 100) : binIdx 0 99 (k : ℚ) = k := by
  unfold binIdx
  by_cases h99 : (99 : ℚ) ≤ (k : ℚ)
  · rw [if_pos h99]
    have : (99 : ℕ) ≤ k := by exact_mod_cast h99
    omega
  · rw [if_neg h99]
    have hkq : (k : ℚ) < 99 := lt_of_not_le h99
    have hfl : ⌊((k : ℚ) - 0) * 100 / (99 - 0)⌋ = (k : ℤ) := by
      rw [sub_zero, sub_zero]
      rw [Int.floor_eq_iff]
      constructor
      · rw [le_div_iff₀ (by norm_num : (0 : ℚ) < 99)]
        push_cast
        nlinarith [Nat.cast_nonneg (α := ℚ) k]
      · rw [div_lt_iff₀ (by norm_num : (0 : ℚ) < 99)]
        push_cast
        nlinarith
    rw [hfl]
    exact Int.toNat_natCast k

/-- The histogram of `0, …, 99` over its own range is uniform: one
value per bin. -/
theorem histCounts_qrange : histCounts (qrange 100) = List.replicate 100 1 := by
  unfold histCounts
  rw [listMin_qrange, listMax_qrange]
  rw [List.eq_replicate_iff]
  refine ⟨by simp, ?_⟩
  intro b hb
  rcases List.mem_map.mp hb with ⟨i, hi, rfl⟩
  have hi100 : i < 100 := List.mem_range.mp hi
  unfold qrange
  rw [List.countP_map]
  rw [List.countP_congr (q := fun k => k == i) ?hpt]
  case hpt =>
    intro k hk
    have hk100 : k < 100 := List.mem_range.mp hk
    show (binIdx 0 99 (k : ℚ) == i) = true ↔ (k == i) = true
    rw [binIdx_cast k hk100]
  show (List.range 100).count i = 1
  have h1 : 1 ≤ (List.range 100).count i :=
    List.one_le_count_iff.mpr (List.mem_range.mpr hi100)
  have h2 : (List.range 100).count i ≤ 1 :=
    List.nodup_iff_count_le_one.mp (List.nodup_range _) i
  omega

/-- The column `0, …, 99` has 100 distinct values. -/
theorem uniqueSorted_qrange_length : (uniqueSorted (qrange 100)).length = 100 := by
  have hnd : (qrange 100).Nodup := by
    unfold qrange
    exact (List.nodup_range 100).map Nat.cast_injective
  unfold uniqueSorted
  rw [(List.perm_insertionSort _ _).length_eq, List.dedup_eq_self.mpr hnd]
  unfold qrange
  simp

/-- The rational skeleton of the MS regression impurity on the C3
data: the smoothed probabilities are uniform `1/100` per bin, and the
bin width is the MATRIX-based `198/100 = 99/50` (not the column's
`99/100`). -/
theorem msHistProbs_yC3 :
    MS.msHistProbs yC3 (colD yC3 0) = (List.replicate 100 (1/100 : ℚ), 99/50) := by
  unfold MS.msHistProbs MS.numba_histogram
  rw [colD_yC3, histCounts_qrange, listMax_yC3_flat, listMin_yC3_flat]
  have hylen : (yC3.length : ℚ) = 100 := by
    unfold yC3
    simp
  rw [hylen]
  dsimp only
  have hbw : ((198 : ℚ) - 0) / 100 = 99 / 50 := by norm_num
  rw [hbw]
  rw [List.map_replicate, List.map_replicate, List.sum_replicate]
  have hv : ((((1 : ℕ) : ℚ) / 100) / (99 / 50) + 1) /
      (100 • ((((1 : ℕ) : ℚ) / 100) / (99 / 50)) + 100) = 1 / 100 := by
    rw [nsmul_eq_mul]
    norm_num
  rw [hv]

/-- The entropy sum of the uniform 100-bin distribution. -/
theorem entSum_uniform100 : entSum (List.replicate 100 (1/100 : ℚ)) =
    - Real.logb 2 100 := by
  unfold entSum
  rw [List.map_replicate, List.sum_replicate]
  rw [nsmul_eq_mul]
  push_cast
  rw [show ((1 : ℝ)/100) = ((100 : ℝ))⁻¹ by norm_num, Real.logb_inv]
  ring

/-- The MS regression impurity of the C3 column: the matrix bin width
`99/50` times `log2 100`. -/
theorem impurity_regression_yC3 :
    MS.impurity_regression yC3 (colD yC3 0) = (99/50 : ℝ) * Real.logb 2 100 := by
  unfold MS.impurity_regression
  rw [if_neg ?hlen]
  case hlen =>
    rw [colD_yC3, uniqueSorted_qrange_length]
    omega
  rw [msHistProbs_yC3]
  dsimp only
  rw [entSum_uniform100]
  push_cast
  ring

/-- The claimed (column-only) regression impurity of the C3 column:
the column bin width `99/100` times `log2 100`. -/
theorem claimImpurityReg_colC3 :
    claimImpurityReg (colD yC3 0) = (99/100 : ℝ) * Real.logb 2 100 := by
  unfold claimImpurityReg
  rw [if_neg ?hlen]
  case hlen =>
    rw [colD_yC3, uniqueSorted_qrange_length]
    omega
  rw [colD_yC3, histCounts_qrange, listMax_qrange, listMin_qrange]
  have hbw : ((99 : ℚ) - 0) / 100 = 99 / 100 := by norm_num
  rw [hbw]
  have hlen2 : ((qrange 100).length : ℚ) = 100 := by
    unfold qrange
    simp
  rw [hlen2]
  dsimp only
  rw [List.map_replicate, List.map_replicate, List.sum_replicate]
  have hv : ((((1 : ℕ) : ℚ) / (100 * (99 / 100)) + 1)) /
      (100 • ((((1 : ℕ) : ℚ) / (100 * (99 / 100)))) + 100) = 1 / 100 := by
    rw [nsmul_eq_mul]
    norm_num
  rw [hv, entSum_uniform100]
  push_cast
  ring

/-- C3 counterexample: on the concrete target matrix `yC3` (regression
column 0 holding `0, …, 99`, a second column stretching the matrix
range to `[0, 198]`), the regression impurity computed by
`core/MixedSplitter.py` — `(99/50)·log2 100` — differs from the
claim's column-only formula — `(99/100)·log2 100` — because the code
scales by the bin width of the WHOLE target matrix. -/
theorem c3_regression_impurity_counterexample :
    MS.impurity_regression yC3 (colD yC3 0) ≠ claimImpurityReg (colD yC3 0) := by
  rw [impurity_regression_yC3, claimImpurityReg_colC3]
  intro h
  have hl : 0 < Real.logb 2 100 := Real.logb_pos (by norm_num) (by norm_num)
  nlinarith [hl, h]

/-- A `getD` into a map over `range` evaluates the mapped function. -/
theorem getD_map_range {α : Type} (f : ℕ → α) (n i : ℕ) (d : α) (hi : i < n) :
    ((List.range n).map f).getD i d = f i := by
  rw [List.getD_eq_getElem _ _ (by simpa using hi)]
  rw [List.getElem_map]
  congr 1
  simp

/-- C3 amended: `impurity_regression` of `core/MixedSplitter.py`
computes, for a column with at least two distinct values, the
100-bin histogram of the COLUMN over the column's range, converts the
counts with the bin width of the WHOLE target matrix (its range over
100) and the matrix's row count, Laplace-smooths
(`(d+1)/(Σd+100)`, probabilities summing to 1), and returns
`-bin_width_matrix · Σ p·log2 p`; a column with fewer than two
distinct values has impurity 0. -/
theorem c3_regression_impurity_amended :
    ∀ (y : Mat) (yreg : List ℚ),
      MS.impurity_regression y yreg = amendedImpurityReg y yreg := by
  intro y yreg
  unfold MS.impurity_regression amendedImpurityReg
  by_cases hlen : (uniqueSorted yreg).length < 2
  · rw [if_pos hlen, if_neg (by omega)]
  · rw [if_neg hlen, if_pos (by omega)]
    unfold MS.msHistProbs MS.numba_histogram histCounts
    dsimp only
    unfold entSum
    simp only [List.map_map, listMapRangeSum]
    have hs : ∑ j ∈ Finset.range 100,
        ((((List.range 100).map (fun i => yreg.countP
            (fun v => binIdx (listMin yreg) (listMax yreg) v == i))).getD j 0 : ℚ) /
          (y.length : ℚ)) /
            ((listMax y.flatten - listMin y.flatten) / 100) =
        ∑ j ∈ Finset.range 100,
          ((yreg.countP (fun v => binIdx (listMin yreg) (listMax yreg) v == j) : ℚ) /
            (y.length : ℚ)) /
              ((listMax y.flatten - listMin y.flatten) / 100) := by
      refine Finset.sum_congr rfl (fun j hj => ?_)
      rw [getD_map_range _ 100 j 0 (Finset.mem_range.mp hj)]
    rw [hs]
    refine congrArg₂ HSub.hSub rfl (congrArg₂ HMul.hMul rfl ?_)
    refine Finset.sum_congr rfl (fun i hi => ?_)
    rw [getD_map_range _ 100 i 0 (Finset.mem_range.mp hi)]
    rfl

end Morfist


